import Mathlib

/-!
# A shallow embedding of `advanced-vector/vector.h`

The header defines `RawMemory<T>` (a block of raw storage) and `Vector<T>`
(a growable array built on it).

Modelling decisions, all visible in the definitions below.

* A block of storage is the list of its cells. A cell is `none` while it is raw
  memory (never constructed, or already destroyed) and `some x` while it holds a
  live object of value `x`. The null pointer is the block with no cell.
* A `T*` into a block is the offset of the cell it points to. Every block has one
  owner (`RawMemory` cannot be copied, its moves null the source), so a block is
  stored inside its owner.
* Undefined behaviour and failed assertions are results of type `Fault`; every
  operation returns `Except Fault _`.
* Sizes, capacities and iterator distances are natural numbers. `Emplace` and
  `Erase` keep distances in an `int`; the model covers blocks whose element count
  fits it. An iterator is the offset of its cell, `begin()` being offset 0.
* A moved-from object is left holding `Element.movedFrom x`. In the members as
  first defined no element operation throws; the definitions named `_throwing`
  follow the same members when a construction throws, and agree with the first
  ones when nothing throws (`Vector.Emplace_throwing_never` and its siblings).
* The algorithms of the standard library are modelled by their specified effects,
  element by element, in the order the standard prescribes; a call outside their
  preconditions is a `Fault`.
-/

namespace AdvancedVector

deriving instance DecidableEq for Except

/-- Ways in which an execution leaves defined behaviour. -/
inductive Fault
  /-- An `assert` of the source is violated. -/
  | assertFailed
  /-- A cell is accessed through the null pointer or past the end of its block. -/
  | outOfBlock
  /-- An object is read, assigned to or destroyed in a cell that holds none. -/
  | notLive
  /-- An algorithm is given a range `[first, last)` whose `last` is before `first`. -/
  | invalidRange
  deriving DecidableEq, Repr

/-- What `Vector<T>` needs to know about its element type `T`. -/
class Element (T : Type) where
  /-- The value of a value-initialised object, `T()`. -/
  valueInit : T
  /-- The value a live object is left with after it has been moved from. -/
  movedFrom : T → T
  /-- The trait `std::is_nothrow_move_constructible_v<T>`. -/
  nothrowMoveConstructible : Bool
  /-- The trait `std::is_copy_constructible_v<T>`. -/
  copyConstructible : Bool

/-- A scalar element type such as `size_t`: moving is copying. -/
instance instElementNat : Element Nat where
  valueInit := 0
  movedFrom := id
  nothrowMoveConstructible := true
  copyConstructible := true

/-- An element type in the manner of `std::string` with a throwing move
constructor: a moved-from object is left empty, and relocation copies. -/
structure Text where
  chars : List Nat
  deriving DecidableEq, Repr

instance instElementText : Element Text where
  valueInit := ⟨[]⟩
  movedFrom := fun _ => ⟨[]⟩
  nothrowMoveConstructible := false
  copyConstructible := true

/-- One cell of a block: raw memory, or a live object. -/
abbrev Slot (T : Type) := Option T

/-- The cells reachable through a `T*`; the null pointer reaches none. -/
abbrev Block (T : Type) := List (Slot T)

section Cells

variable {T : Type}

/-- Read the live object in cell `i`. -/
def readLive (b : Block T) (i : Nat) : Except Fault T :=
  match b[i]? with
  | none => .error .outOfBlock
  | some none => .error .notLive
  | some (some x) => .ok x

/-- Placement new, `new (p) T(x)`, on cell `i`. -/
def construct_at (b : Block T) (i : Nat) (x : T) : Except Fault (Block T) :=
  if i < b.length then .ok (b.set i (some x)) else .error .outOfBlock

/-- Assignment `*p = x` to the live object in cell `i`. -/
def assign_at (b : Block T) (i : Nat) (x : T) : Except Fault (Block T) :=
  match b[i]? with
  | none => .error .outOfBlock
  | some none => .error .notLive
  | some (some _) => .ok (b.set i (some x))

/-- Destructor call on the live object in cell `i`, which becomes raw memory. -/
def destroy_at (b : Block T) (i : Nat) : Except Fault (Block T) :=
  match b[i]? with
  | none => .error .outOfBlock
  | some none => .error .notLive
  | some (some _) => .ok (b.set i none)

/-- Model of `std::destroy_n(first, n)`. -/
def destroy_n (b : Block T) (first : Nat) : Nat → Except Fault (Block T)
  | 0 => .ok b
  | n + 1 => do
    let b1 ← destroy_at b first
    destroy_n b1 (first + 1) n

/-- Model of `std::uninitialized_value_construct_n(first, n)`. -/
def uninitialized_value_construct_n [Element T] (b : Block T) (first : Nat) :
    Nat → Except Fault (Block T)
  | 0 => .ok b
  | n + 1 => do
    let b1 ← construct_at b first (Element.valueInit : T)
    uninitialized_value_construct_n b1 (first + 1) n

/-- Model of `std::uninitialized_copy_n(first, count, d_first)` when the source
range lies in block `src` and the destination in another block `dst`. -/
def uninitialized_copy_n (src : Block T) (first : Nat) :
    Nat → Block T → Nat → Except Fault (Block T)
  | 0, dst, _ => .ok dst
  | n + 1, dst, d_first => do
    let x ← readLive src first
    let dst1 ← construct_at dst d_first x
    uninitialized_copy_n src (first + 1) n dst1 (d_first + 1)

/-- Model of `std::uninitialized_copy_n(first, count, d_first)` when both pointers
point into the same block `b`. -/
def uninitialized_copy_n_within (b : Block T) (first : Nat) :
    Nat → Nat → Except Fault (Block T)
  | 0, _ => .ok b
  | n + 1, d_first => do
    let x ← readLive b first
    let b1 ← construct_at b d_first x
    uninitialized_copy_n_within b1 (first + 1) n (d_first + 1)

/-- Model of `std::uninitialized_move_n(first, count, d_first)` from block `src`
into another block `dst`; the result is both blocks. -/
def uninitialized_move_n [Element T] (src : Block T) (first : Nat) :
    Nat → Block T → Nat → Except Fault (Block T × Block T)
  | 0, dst, _ => .ok (src, dst)
  | n + 1, dst, d_first => do
    let x ← readLive src first
    let dst1 ← construct_at dst d_first x
    uninitialized_move_n (src.set first (some (Element.movedFrom x))) (first + 1) n dst1
      (d_first + 1)

/-- The loop of `std::copy`: `count` assignments `*d_first++ = *first++`. -/
def copy_loop (src : Block T) (first : Nat) : Nat → Block T → Nat → Except Fault (Block T)
  | 0, dst, _ => .ok dst
  | n + 1, dst, d_first => do
    let x ← readLive src first
    let dst1 ← assign_at dst d_first x
    copy_loop src (first + 1) n dst1 (d_first + 1)

/-- Model of `std::copy(first, last, d_first)` from block `src` into another block. -/
def copy (src : Block T) (first last : Nat) (dst : Block T) (d_first : Nat) :
    Except Fault (Block T) :=
  if first ≤ last then copy_loop src first (last - first) dst d_first
  else .error .invalidRange

/-- Move assignment `b[j] = std::move(b[i])` inside one block. -/
def move_assign_within [Element T] (b : Block T) (i j : Nat) : Except Fault (Block T) := do
  let x ← readLive b i
  let b1 ← assign_at b j x
  pure (b1.set i (some (Element.movedFrom x)))

/-- The loop of `std::move_backward`: `count` steps `*(--d_last) = std::move(*(--last))`. -/
def move_backward_loop [Element T] (b : Block T) (last d_last : Nat) :
    Nat → Except Fault (Block T)
  | 0 => .ok b
  | n + 1 => do
    let b1 ← move_assign_within b (last - 1) (d_last - 1)
    move_backward_loop b1 (last - 1) (d_last - 1) n

/-- Model of `std::move_backward(first, last, d_last)` inside one block. -/
def move_backward [Element T] (b : Block T) (first last d_last : Nat) :
    Except Fault (Block T) :=
  if first ≤ last then move_backward_loop b last d_last (last - first)
  else .error .invalidRange

/-- The loop of `std::ranges::move`: `count` steps `*d_first++ = std::move(*first++)`. -/
def ranges_move_loop [Element T] (b : Block T) (first d_first : Nat) :
    Nat → Except Fault (Block T)
  | 0 => .ok b
  | n + 1 => do
    let b1 ← move_assign_within b first d_first
    ranges_move_loop b1 (first + 1) (d_first + 1) n

/-- Model of `std::ranges::move(first, last, d_first)` inside one block. -/
def ranges_move [Element T] (b : Block T) (first last d_first : Nat) :
    Except Fault (Block T) :=
  if first ≤ last then ranges_move_loop b first d_first (last - first)
  else .error .invalidRange

/-- Move construction `new (b + j) T(std::move(b[i]))` inside one block. -/
def move_construct_within [Element T] (b : Block T) (i j : Nat) : Except Fault (Block T) := do
  let x ← readLive b i
  let b1 ← construct_at b j x
  pure (b1.set i (some (Element.movedFrom x)))

/-- Read the `n` live objects of the cells from `first` on, in order. -/
def readRange (b : Block T) (first : Nat) : Nat → Except Fault (List T)
  | 0 => .ok []
  | n + 1 => do
    let x ← readLive b first
    let xs ← readRange b (first + 1) n
    pure (x :: xs)

end Cells

/-- The class `RawMemory<T>`: a pointer to a block and the capacity recorded for it. -/
structure RawMemory (T : Type) where
  /-- The cells reachable through the member `buffer_`; none when it is null. -/
  buffer_ : Block T
  /-- The member `capacity_`. -/
  capacity_ : Nat
  deriving DecidableEq, Repr

namespace RawMemory

variable {T : Type}

/-- The constructor `RawMemory() = default`. -/
def new : RawMemory T := ⟨[], 0⟩

/-- The static member `Allocate(n)`: raw cells for `n` elements, null for `n = 0`. -/
def Allocate (n : Nat) : Block T :=
  if n ≠ 0 then List.replicate n none else []

/-- The constructor `RawMemory(size_t capacity)`. -/
def ofCapacity (capacity : Nat) : RawMemory T := ⟨Allocate capacity, capacity⟩

/-- The constructor `RawMemory(RawMemory&& other)`: the new object, then `other`
as it is left (its pointer is nulled, its `capacity_` is not touched). -/
def moveCtor (other : RawMemory T) : RawMemory T × RawMemory T :=
  (⟨other.buffer_, other.capacity_⟩, ⟨[], other.capacity_⟩)

/-- The operator `operator=(RawMemory&& rhs)`: the old block of the target is
deallocated; the result is the target, then `rhs` as it is left. -/
def moveAssign (_this rhs : RawMemory T) : RawMemory T × RawMemory T :=
  (⟨rhs.buffer_, rhs.capacity_⟩, ⟨[], rhs.capacity_⟩)

/-- The operator `operator+(size_t offset)`, with its assertion. -/
def add (m : RawMemory T) (offset : Nat) : Except Fault Nat :=
  if offset ≤ m.capacity_ then .ok offset else .error .assertFailed

/-- The operator `operator[](size_t index)`, with its assertion: a reference to
the cell, which is only accessed by the caller. -/
def index (m : RawMemory T) (i : Nat) : Except Fault Nat :=
  if i < m.capacity_ then .ok i else .error .assertFailed

/-- The member `Swap(other)`: the object, then `other`, after the exchange. -/
def Swap (m other : RawMemory T) : RawMemory T × RawMemory T := (other, m)

/-- The member `GetAddress()`: the pointer `buffer_`, which points to the first
cell of the block, as an offset into the block. -/
@[reducible] def GetAddress (_m : RawMemory T) : Nat := 0

/-- The member `Capacity()`. -/
def Capacity (m : RawMemory T) : Nat := m.capacity_

end RawMemory

/-- The class `Vector<T>`. -/
structure Vector (T : Type) where
  /-- The member `data_`. -/
  data_ : RawMemory T
  /-- The member `size_`. -/
  size_ : Nat
  deriving DecidableEq, Repr

namespace Vector

variable {T : Type}

/-- The constructor `Vector() = default`. -/
def new : Vector T := ⟨RawMemory.new, 0⟩

/-- The members `begin()` and `cbegin()`, as an offset into the block. -/
@[reducible] def begin (v : Vector T) : Nat := v.data_.GetAddress

/-- The members `end()` and `cend()`, as an offset into the block. -/
@[reducible] def end_ (v : Vector T) : Nat := v.data_.GetAddress + v.size_

/-- The member `Size()`. -/
def Size (v : Vector T) : Nat := v.size_

/-- The member `Capacity()`. -/
def Capacity (v : Vector T) : Nat := v.data_.Capacity

/-- The constructor `Vector(size_t size)`. -/
def ofSize [Element T] (size : Nat) : Except Fault (Vector T) := do
  let data : RawMemory T := RawMemory.ofCapacity size
  let b ← uninitialized_value_construct_n data.buffer_ data.GetAddress size
  pure ⟨⟨b, data.capacity_⟩, size⟩

/-- The destructor `~Vector()`: the live elements are destroyed (the block is then
released by `~RawMemory`). -/
def destroy (v : Vector T) : Except Fault Unit := do
  let _ ← destroy_n v.data_.buffer_ v.data_.GetAddress v.size_
  pure ()

/-- The constructor `Vector(const Vector& other)`. -/
def copyCtor (other : Vector T) : Except Fault (Vector T) := do
  let data : RawMemory T := RawMemory.ofCapacity other.size_
  let b ← uninitialized_copy_n other.data_.buffer_ other.data_.GetAddress other.size_
    data.buffer_ data.GetAddress
  pure ⟨⟨b, data.capacity_⟩, other.size_⟩

/-- The constructor `Vector(Vector&& rhs)`: the new vector, then `rhs` as it is left. -/
def moveCtor (rhs : Vector T) : Vector T × Vector T :=
  let r := RawMemory.moveCtor rhs.data_
  (⟨r.1, rhs.size_⟩, ⟨r.2, 0⟩)

/-- The operator `operator=(Vector&& rhs)`: the target, then `rhs`, afterwards.
`self_assign` tells that `rhs` is the target itself (`this == &rhs`). -/
def moveAssign (self_assign : Bool) (this rhs : Vector T) : Vector T × Vector T :=
  if !self_assign then
    let r := RawMemory.moveAssign this.data_ rhs.data_
    (⟨r.1, rhs.size_⟩, ⟨r.2, 0⟩)
  else (this, this)

/-- The member `Swap(other)`: the object, then `other`, after the exchange. -/
def Swap (v other : Vector T) : Vector T × Vector T :=
  let r := RawMemory.Swap v.data_ other.data_
  (⟨r.1, other.size_⟩, ⟨r.2, v.size_⟩)

/-- The operator `operator=(const Vector& rhs)`. `self_assign` tells that `rhs` is
the target itself (`this == &rhs`). -/
def copyAssign (self_assign : Bool) (this rhs : Vector T) : Except Fault (Vector T) :=
  if !self_assign then
    if rhs.size_ > this.data_.Capacity then do
      let copy ← copyCtor rhs
      let r := Swap this copy
      let _ ← destroy r.2
      pure r.1
    else do
      let copy_count := min this.size_ rhs.size_
      let b ← AdvancedVector.copy rhs.data_.buffer_ rhs.data_.GetAddress
        (rhs.data_.GetAddress + copy_count) this.data_.buffer_ this.data_.GetAddress
      let b1 ←
        if rhs.Size < this.size_ then
          destroy_n b (this.data_.GetAddress + rhs.Size) (this.size_ - rhs.Size)
        else
          uninitialized_copy_n_within b (this.data_.GetAddress + this.size_)
            (rhs.size_ - this.size_) this.data_.GetAddress
      pure ⟨⟨b1, this.data_.capacity_⟩, rhs.Size⟩
  else pure this

/-- The private member `MoveOrCopy(out, count, in)`: `out` points to cell `first`
of block `src`, `in` to cell `d_first` of another block `dst`. The result is both
blocks. -/
def MoveOrCopy [Element T] (src : Block T) (first count : Nat) (dst : Block T)
    (d_first : Nat) : Except Fault (Block T × Block T) :=
  if Element.nothrowMoveConstructible T || !Element.copyConstructible T then
    uninitialized_move_n src first count dst d_first
  else do
    let dst1 ← uninitialized_copy_n src first count dst d_first
    pure (src, dst1)

/-- The member `Reserve(new_capacity)`. -/
def Reserve [Element T] (v : Vector T) (new_capacity : Nat) : Except Fault (Vector T) :=
  if new_capacity ≤ v.data_.Capacity then pure v
  else do
    let new_data : RawMemory T := RawMemory.ofCapacity new_capacity
    let r ← MoveOrCopy v.data_.buffer_ v.data_.GetAddress v.size_ new_data.buffer_
      new_data.GetAddress
    let old ← destroy_n r.1 v.data_.GetAddress v.size_
    let s := RawMemory.Swap ⟨r.2, new_data.capacity_⟩ ⟨old, v.data_.capacity_⟩
    pure ⟨s.2, v.size_⟩

/-- The member `Resize(new_size)`. -/
def Resize [Element T] (v : Vector T) (new_size : Nat) : Except Fault (Vector T) :=
  if new_size < v.size_ then do
    let b ← destroy_n v.data_.buffer_ (v.data_.GetAddress + new_size) (v.size_ - new_size)
    pure ⟨⟨b, v.data_.capacity_⟩, new_size⟩
  else do
    let v1 ← Reserve v new_size
    let b ← uninitialized_value_construct_n v1.data_.buffer_ (v1.data_.GetAddress + v1.size_)
      (new_size - v1.size_)
    pure ⟨⟨b, v1.data_.capacity_⟩, new_size⟩

/-- The member `PopBack()`. -/
def PopBack (v : Vector T) : Except Fault (Vector T) :=
  if v.size_ ≠ 0 then do
    let b ← destroy_n v.data_.buffer_ (v.data_.GetAddress + (v.size_ - 1)) 1
    pure ⟨⟨b, v.data_.capacity_⟩, v.size_ - 1⟩
  else pure v

/-- The operator `operator[](size_t index)`, with its assertion and that of
`RawMemory::operator[]`: a reference to the cell. -/
def index (v : Vector T) (i : Nat) : Except Fault Nat :=
  if i < v.size_ then v.data_.index i else .error .assertFailed

/-- The value read through `(*this)[index]`. -/
def get (v : Vector T) (i : Nat) : Except Fault T := do
  let r ← v.index i
  readLive v.data_.buffer_ r

/-- A traversal from `begin()` to `end()`, reading every element. -/
def traverse (v : Vector T) : Except Fault (List T) :=
  readRange v.data_.buffer_ v.begin (v.end_ - v.begin)

/-- The member `EmplaceBack(args...)`, where `x` is the value the new element is
constructed with. The result is the vector and the returned reference. -/
def EmplaceBack [Element T] (v : Vector T) (x : T) : Except Fault (Vector T × Nat) := do
  let v1 ← show Except Fault (Vector T) from
    if v.size_ = v.data_.Capacity then do
      let new_data : RawMemory T :=
        RawMemory.ofCapacity (if v.size_ = 0 then 1 else v.size_ * 2)
      let p ← new_data.add v.size_
      let nb ← construct_at new_data.buffer_ p x
      let r ← MoveOrCopy v.data_.buffer_ v.data_.GetAddress v.size_ nb new_data.GetAddress
      let old ← destroy_n r.1 v.data_.GetAddress v.size_
      let s := RawMemory.Swap ⟨r.2, new_data.capacity_⟩ ⟨old, v.data_.capacity_⟩
      pure ⟨s.2, v.size_⟩
    else do
      let p ← v.data_.add v.size_
      let b ← construct_at v.data_.buffer_ p x
      pure ⟨⟨b, v.data_.capacity_⟩, v.size_⟩
  let v2 : Vector T := ⟨v1.data_, v1.size_ + 1⟩
  let ref ← v2.index (v2.size_ - 1)
  pure (v2, ref)

/-- The members `PushBack(const T&)` and `PushBack(T&&)`. -/
def PushBack [Element T] (v : Vector T) (value : T) : Except Fault (Vector T) := do
  let r ← EmplaceBack v value
  pure r.1

/-- The member `Emplace(pos, args...)`, where `pos` is an offset into the block and
`x` is the value the new element is constructed with. The result is the vector and
the returned iterator. The distances `dist`, `count` and `count_after` are the exact
ones for `pos` in `[cbegin(), cend()]`, the contract of the member; the `try` blocks
of the source have no effect here, where no element operation throws. -/
def Emplace [Element T] (v : Vector T) (pos : Nat) (x : T) :
    Except Fault (Vector T × Nat) := do
  let dist := pos - v.begin
  let r ← show Except Fault (Vector T × Nat) from
    if v.size_ = v.data_.Capacity then do
      let new_data : RawMemory T :=
        RawMemory.ofCapacity (if v.size_ = 0 then 1 else v.size_ * 2)
      let p ← new_data.add dist
      let nb ← construct_at new_data.buffer_ p x
      let count := pos - v.begin
      let r1 ← MoveOrCopy v.data_.buffer_ v.data_.GetAddress count nb new_data.GetAddress
      let count_after := v.end_ - pos
      let r2 ← MoveOrCopy r1.1 (v.begin + count) count_after r1.2
        (new_data.GetAddress + count + 1)
      let old ← destroy_n r2.1 v.data_.GetAddress v.size_
      let s := RawMemory.Swap ⟨r2.2, new_data.capacity_⟩ ⟨old, v.data_.capacity_⟩
      pure (⟨s.2, v.size_⟩, p)
    else
      if v.begin ≠ v.end_ then do
        let temp := x
        let p ← v.data_.add v.size_
        let last ← v.index (v.size_ - 1)
        let b1 ← move_construct_within v.data_.buffer_ last p
        let first ← v.data_.add dist
        let b2 ← move_backward b1 first (v.end_ - 1) v.end_
        let slot ← v.data_.index dist
        let b3 ← assign_at b2 slot temp
        pure (⟨⟨b3, v.data_.capacity_⟩, v.size_⟩, v.begin + dist)
      else do
        let b ← construct_at v.data_.buffer_ v.data_.GetAddress x
        pure (⟨⟨b, v.data_.capacity_⟩, v.size_⟩, v.data_.GetAddress)
  pure (⟨r.1.data_, r.1.size_ + 1⟩, r.2)

/-- The members `Insert(pos, const T&)` and `Insert(pos, T&&)`. -/
def Insert [Element T] (v : Vector T) (pos : Nat) (value : T) :
    Except Fault (Vector T × Nat) :=
  Emplace v pos value

/-- The member `Erase(pos)`, where `pos` is an offset into the block. The result is
the vector and the returned iterator. The distance `dist` is the exact one for
`pos` at or after `cbegin()`. -/
def Erase [Element T] (v : Vector T) (pos : Nat) : Except Fault (Vector T × Nat) := do
  let dist := pos - v.begin
  let b ← ranges_move v.data_.buffer_ (v.begin + dist + 1) v.end_ (v.begin + dist)
  let b1 ← destroy_n b (v.end_ - 1) 1
  pure (⟨⟨b1, v.data_.capacity_⟩, v.size_ - 1⟩, v.begin + dist)

/-- Appending the values of a list, in order, by `PushBack`. -/
def appendAll [Element T] (v : Vector T) : List T → Except Fault (Vector T)
  | [] => .ok v
  | x :: xs => do
    let v1 ← PushBack v x
    appendAll v1 xs

/-- The sequence a vector holds: the values of the live objects in its first
`size_` cells. -/
def contents (v : Vector T) : List T :=
  (v.data_.buffer_.take v.size_).reduceOption

/-- The representation invariant of `Vector`: the first `size_` cells of the block
exist and hold live objects, the other cells of the block are raw, and the block
has `capacity_` cells unless the pointer is null. -/
def WF (v : Vector T) : Prop :=
  v.size_ ≤ v.data_.buffer_.length ∧
  (∀ s ∈ v.data_.buffer_.take v.size_, s.isSome = true) ∧
  (∀ s ∈ v.data_.buffer_.drop v.size_, s.isNone = true) ∧
  (v.data_.buffer_ = [] ∨ v.data_.buffer_.length = v.data_.capacity_)

instance instDecidableWF [DecidableEq T] (v : Vector T) : Decidable (WF v) := by
  unfold WF
  exact inferInstance

/-- The vector states a program can build: a constructor, then any operations that
stay within defined behaviour, with `Emplace` and `Insert` at a position up to
`end()` and `Erase` at the position of an element. -/
inductive Reachable [Element T] : Vector T → Prop
  | ctor : Reachable Vector.new
  | ctorSize {v : Vector T} (n : Nat) : ofSize n = .ok v → Reachable v
  | ctorCopy {s c : Vector T} : Reachable s → copyCtor s = .ok c → Reachable c
  | ctorMove {a : Vector T} : Reachable a → Reachable (moveCtor a).1
  | ctorMoveSource {a : Vector T} : Reachable a → Reachable (moveCtor a).2
  | reserve {v w : Vector T} (n : Nat) : Reachable v → Reserve v n = .ok w → Reachable w
  | resize {v w : Vector T} (n : Nat) : Reachable v → Resize v n = .ok w → Reachable w
  | pushBack {v w : Vector T} (x : T) : Reachable v → PushBack v x = .ok w → Reachable w
  | emplaceBack {v w : Vector T} (x : T) (r : Nat) :
      Reachable v → EmplaceBack v x = .ok (w, r) → Reachable w
  | popBack {v w : Vector T} : Reachable v → PopBack v = .ok w → Reachable w
  | emplace {v w : Vector T} (pos : Nat) (x : T) (r : Nat) :
      Reachable v → pos ≤ v.size_ → Emplace v pos x = .ok (w, r) → Reachable w
  | insert {v w : Vector T} (pos : Nat) (x : T) (r : Nat) :
      Reachable v → pos ≤ v.size_ → Insert v pos x = .ok (w, r) → Reachable w
  | erase {v w : Vector T} (pos : Nat) (r : Nat) :
      Reachable v → pos < v.size_ → Erase v pos = .ok (w, r) → Reachable w
  | swap {a b : Vector T} : Reachable a → Reachable b → Reachable (Swap a b).1
  | swapOther {a b : Vector T} : Reachable a → Reachable b → Reachable (Swap a b).2
  | copyAssign {d s w : Vector T} (self_assign : Bool) :
      Reachable d → Reachable s → copyAssign self_assign d s = .ok w → Reachable w
  | moveAssign {d s : Vector T} (self_assign : Bool) :
      Reachable d → Reachable s → Reachable (moveAssign self_assign d s).1
  | moveAssignSource {d s : Vector T} (self_assign : Bool) :
      Reachable d → Reachable s → Reachable (moveAssign self_assign d s).2

end Vector

/-- The block that holds live objects of values `xs` followed by `k` raw cells. -/
def cellsOf {T : Type} (xs : List T) (k : Nat) : Block T :=
  xs.map some ++ List.replicate k none

/-- The vector whose block is `cellsOf xs k`, with `capacity_ = cap`. -/
def Vector.rep {T : Type} (xs : List T) (k cap : Nat) : Vector T :=
  ⟨⟨cellsOf xs k, cap⟩, xs.length⟩

/-! ## Element operations that throw

The definitions above take every element operation to succeed. The ones below
follow the same members of `Vector` when the construction of the new element, or
the copy or move construction of an existing element, throws. A member function
ends by returning or by an exception that leaves it; either way the vector is in
some state afterwards. A constructor that throws leaves the storage it was to
construct in as it was. Assignments do not throw here. -/

/-- An element type that can only be moved, by a move constructor that may throw,
in the manner of a handle to a resource: a moved-from handle holds 0. -/
structure Handle where
  id : Nat
  deriving DecidableEq, Repr

instance instElementHandle : Element Handle where
  valueInit := ⟨0⟩
  movedFrom := fun _ => ⟨0⟩
  nothrowMoveConstructible := false
  copyConstructible := false

/-- Which constructions of a new object from an existing one throw, by the value of
the existing object. -/
structure Throws (T : Type) where
  /-- Copy construction from an object of this value throws. -/
  copy : T → Bool
  /-- Move construction from an object of this value throws; it is only consulted
  for element types that are not nothrow move constructible. -/
  move : T → Bool

/-- How a call ends within defined behaviour. -/
inductive Completion (α : Type) where
  /-- The call returns a value. -/
  | returned (a : α)
  /-- An exception leaves the call. -/
  | threw
  deriving DecidableEq, Repr

section ThrowingCells

variable {T : Type}

/-- Placement new, `new (p) T(args...)`, on cell `i`, where `arg` is the value the
object is constructed with, or `none` when the constructor throws. The result is
`none` when the exception leaves. -/
def construct_at_throwing (b : Block T) (i : Nat) (arg : Option T) :
    Except Fault (Option (Block T)) :=
  match arg with
  | none => .ok none
  | some x => do
    let b1 ← construct_at b i x
    pure (some b1)

/-- Model of `std::uninitialized_copy_n(first, count, d_first)` from block `src` into
another block, when copy construction from a value with `throws` throws. The
algorithm then destroys the objects it constructed and the exception leaves it:
the result is `none`, and no caller uses the destination block again. -/
def uninitialized_copy_n_throwing (throws : T → Bool) (src : Block T) (first : Nat) :
    Nat → Block T → Nat → Except Fault (Option (Block T))
  | 0, dst, _ => .ok (some dst)
  | n + 1, dst, d_first => do
    let x ← readLive src first
    if throws x then pure none
    else do
      let dst1 ← construct_at dst d_first x
      uninitialized_copy_n_throwing throws src (first + 1) n dst1 (d_first + 1)

/-- Model of `std::uninitialized_move_n(first, count, d_first)` from block `src` into
another block, when move construction from a value with `throws` throws. The
result is the source block, where the objects moved before the exception are
moved-from, and the destination block, or `none` when the exception leaves. -/
def uninitialized_move_n_throwing [Element T] (throws : T → Bool) (src : Block T)
    (first : Nat) : Nat → Block T → Nat → Except Fault (Block T × Option (Block T))
  | 0, dst, _ => .ok (src, some dst)
  | n + 1, dst, d_first => do
    let x ← readLive src first
    if throws x then pure (src, none)
    else do
      let dst1 ← construct_at dst d_first x
      uninitialized_move_n_throwing throws (src.set first (some (Element.movedFrom x)))
        (first + 1) n dst1 (d_first + 1)

end ThrowingCells

namespace Vector

variable {T : Type}

/-- The private member `MoveOrCopy(out, count, in)` when element constructions may
throw. The result is the source block and the destination block, or `none` when an
exception leaves. -/
def MoveOrCopy_throwing [Element T] (th : Throws T) (src : Block T) (first count : Nat)
    (dst : Block T) (d_first : Nat) : Except Fault (Block T × Option (Block T)) :=
  if Element.nothrowMoveConstructible T || !Element.copyConstructible T then
    uninitialized_move_n_throwing
      (fun x => !Element.nothrowMoveConstructible T && th.move x) src first count dst d_first
  else do
    let dst1 ← uninitialized_copy_n_throwing th.copy src first count dst d_first
    pure (src, dst1)

/-- The member `Reserve(new_capacity)` when element constructions may throw. When
the exception leaves, `new_data` is released by its destructor. -/
def Reserve_throwing [Element T] (th : Throws T) (v : Vector T) (new_capacity : Nat) :
    Except Fault (Vector T × Completion Unit) :=
  if new_capacity ≤ v.data_.Capacity then pure (v, .returned ())
  else do
    let new_data : RawMemory T := RawMemory.ofCapacity new_capacity
    let r ← MoveOrCopy_throwing th v.data_.buffer_ v.data_.GetAddress v.size_
      new_data.buffer_ new_data.GetAddress
    match r.2 with
    | none => pure (⟨⟨r.1, v.data_.capacity_⟩, v.size_⟩, .threw)
    | some nb => do
      let old ← destroy_n r.1 v.data_.GetAddress v.size_
      let s := RawMemory.Swap ⟨nb, new_data.capacity_⟩ ⟨old, v.data_.capacity_⟩
      pure (⟨s.2, v.size_⟩, .returned ())

/-- The member `EmplaceBack(args...)` when element constructions may throw; `arg` is
the value the new element is constructed with, or `none` when its constructor
throws. -/
def EmplaceBack_throwing [Element T] (th : Throws T) (v : Vector T) (arg : Option T) :
    Except Fault (Vector T × Completion Nat) :=
  if v.size_ = v.data_.Capacity then do
    let new_data : RawMemory T :=
      RawMemory.ofCapacity (if v.size_ = 0 then 1 else v.size_ * 2)
    let p ← new_data.add v.size_
    let c ← construct_at_throwing new_data.buffer_ p arg
    match c with
    | none => pure (v, .threw)
    | some nb => do
      let r ← MoveOrCopy_throwing th v.data_.buffer_ v.data_.GetAddress v.size_ nb
        new_data.GetAddress
      match r.2 with
      | none => pure (⟨⟨r.1, v.data_.capacity_⟩, v.size_⟩, .threw)
      | some nb1 => do
        let old ← destroy_n r.1 v.data_.GetAddress v.size_
        let s := RawMemory.Swap ⟨nb1, new_data.capacity_⟩ ⟨old, v.data_.capacity_⟩
        let v2 : Vector T := ⟨s.2, v.size_ + 1⟩
        let ref ← v2.index (v2.size_ - 1)
        pure (v2, .returned ref)
  else do
    let p ← v.data_.add v.size_
    let c ← construct_at_throwing v.data_.buffer_ p arg
    match c with
    | none => pure (v, .threw)
    | some b => do
      let v2 : Vector T := ⟨⟨b, v.data_.capacity_⟩, v.size_ + 1⟩
      let ref ← v2.index (v2.size_ - 1)
      pure (v2, .returned ref)

/-- The member `Emplace(pos, args...)` when element constructions may throw; `arg` is
the value the new element is constructed with, or `none` when its constructor
throws. The returned iterator is `none` when it is the null pointer that `result`
is initialised with. Each `try` block of the source catches every exception, calls
`std::destroy_n` on the cell that was to be constructed, and goes on. -/
def Emplace_throwing [Element T] (th : Throws T) (v : Vector T) (pos : Nat)
    (arg : Option T) : Except Fault (Vector T × Completion (Option Nat)) := do
  let dist := pos - v.begin
  if v.size_ = v.data_.Capacity then do
    let new_data : RawMemory T :=
      RawMemory.ofCapacity (if v.size_ = 0 then 1 else v.size_ * 2)
    let p ← new_data.add dist
    let c ← construct_at_throwing new_data.buffer_ p arg
    let t ← show Except Fault (Block T × Option Nat) from
      match c with
      | some nb => pure (nb, some p)
      | none => do
        let q ← new_data.add dist
        let nb ← destroy_n new_data.buffer_ q 1
        pure (nb, none)
    let count := pos - v.begin
    let r1 ← MoveOrCopy_throwing th v.data_.buffer_ v.data_.GetAddress count t.1
      new_data.GetAddress
    match r1.2 with
    | none => pure (⟨⟨r1.1, v.data_.capacity_⟩, v.size_⟩, .threw)
    | some nb1 => do
      let count_after := v.end_ - pos
      let r2 ← MoveOrCopy_throwing th r1.1 (v.begin + count) count_after nb1
        (new_data.GetAddress + count + 1)
      match r2.2 with
      | none => pure (⟨⟨r2.1, v.data_.capacity_⟩, v.size_⟩, .threw)
      | some nb2 => do
        let old ← destroy_n r2.1 v.data_.GetAddress v.size_
        let s := RawMemory.Swap ⟨nb2, new_data.capacity_⟩ ⟨old, v.data_.capacity_⟩
        pure (⟨s.2, v.size_ + 1⟩, .returned t.2)
  else
    if v.begin ≠ v.end_ then
      match arg with
      | none => pure (v, .threw)
      | some temp => do
        let p ← v.data_.add v.size_
        let last ← v.index (v.size_ - 1)
        let x ← readLive v.data_.buffer_ last
        let b1 ←
          if !Element.nothrowMoveConstructible T && th.move x then
            destroy_n v.data_.buffer_ v.end_ 1
          else move_construct_within v.data_.buffer_ last p
        let first ← v.data_.add dist
        let b2 ← move_backward b1 first (v.end_ - 1) v.end_
        let slot ← v.data_.index dist
        let b3 ← assign_at b2 slot temp
        pure (⟨⟨b3, v.data_.capacity_⟩, v.size_ + 1⟩, .returned (some (v.begin + dist)))
    else do
      let c ← construct_at_throwing v.data_.buffer_ v.data_.GetAddress arg
      match c with
      | some b =>
        pure (⟨⟨b, v.data_.capacity_⟩, v.size_ + 1⟩, .returned (some v.data_.GetAddress))
      | none => do
        let b ← destroy_n v.data_.buffer_ v.begin 1
        pure (⟨⟨b, v.data_.capacity_⟩, v.size_ + 1⟩, .returned none)

/-- The number of existing elements that `EmplaceBack` passes to `MoveOrCopy`: the
argument `size_` of the call on the growth path; the in-place path makes no call. -/
def relocations (v : Vector T) : Nat :=
  if v.size_ = v.data_.Capacity then v.size_ else 0

/-- Appending the values of a list, in order, by `PushBack`, and counting the
existing elements relocated on the way. -/
def appendAllCounting [Element T] (v : Vector T) : List T → Except Fault (Vector T × Nat)
  | [] => .ok (v, 0)
  | x :: xs => do
    let v1 ← PushBack v x
    let r ← appendAllCounting v1 xs
    pure (r.1, relocations v + r.2)

end Vector

/-- No copy and no move throws. -/
def Throws.never {T : Type} : Throws T := ⟨fun _ => false, fun _ => false⟩

/-- Copying the text `[7]` throws. -/
def Text.copyOfSevenThrows : Throws Text := ⟨fun t => t.chars == [7], fun _ => false⟩

/-- Moving the handle 2 throws. -/
def Handle.moveOfTwoThrows : Throws Handle := ⟨fun _ => false, fun h => h.id == 2⟩

section CellLemmas

variable {T : Type}

@[simp] theorem bind_ok {α β : Type} (a : α) (f : α → Except Fault β) :
    (Except.ok a >>= f) = f a := rfl

@[simp] theorem bind_error {α β : Type} (e : Fault) (f : α → Except Fault β) :
    (Except.error e >>= f) = Except.error e := rfl

@[simp] theorem pure_eq_ok {α : Type} (a : α) : (pure a : Except Fault α) = Except.ok a := rfl

theorem getElem?_mid {α : Type} (pre post : List α) (a : α) (i : Nat) (hi : i = pre.length) :
    (pre ++ a :: post)[i]? = some a := by
  subst hi
  rw [List.getElem?_append_right (le_refl _)]
  simp

theorem set_mid {α : Type} (pre post : List α) (a b : α) (i : Nat) (hi : i = pre.length) :
    (pre ++ a :: post).set i b = pre ++ b :: post := by
  subst hi
  simp

theorem readLive_mid (pre post : Block T) (x : T) (i : Nat) (hi : i = pre.length) :
    readLive (pre ++ some x :: post) i = .ok x := by
  simp [readLive, getElem?_mid pre post (some x) i hi]

theorem readLive_raw (pre post : Block T) (i : Nat) (hi : i = pre.length) :
    readLive (pre ++ none :: post) i = .error .notLive := by
  simp [readLive, getElem?_mid pre post none i hi]

theorem readLive_out (b : Block T) (i : Nat) (hi : b.length ≤ i) :
    readLive b i = .error .outOfBlock := by
  simp [readLive, List.getElem?_eq_none hi]

theorem construct_at_mid (pre post : Block T) (a : Slot T) (x : T) (i : Nat)
    (hi : i = pre.length) :
    construct_at (pre ++ a :: post) i x = .ok (pre ++ some x :: post) := by
  have h : i < pre.length + (post.length + 1) := by omega
  simp [construct_at, h, set_mid pre post a (some x) i hi]

theorem construct_at_out (b : Block T) (x : T) (i : Nat) (hi : b.length ≤ i) :
    construct_at b i x = .error .outOfBlock := by
  simp [construct_at]
  omega

theorem assign_at_mid (pre post : Block T) (y x : T) (i : Nat) (hi : i = pre.length) :
    assign_at (pre ++ some y :: post) i x = .ok (pre ++ some x :: post) := by
  simp [assign_at, getElem?_mid pre post (some y) i hi, set_mid pre post (some y) (some x) i hi]

theorem destroy_at_mid (pre post : Block T) (y : T) (i : Nat) (hi : i = pre.length) :
    destroy_at (pre ++ some y :: post) i = .ok (pre ++ none :: post) := by
  simp [destroy_at, getElem?_mid pre post (some y) i hi, set_mid pre post (some y) none i hi]

theorem destroy_n_spec (ys : List T) : ∀ (pre post : Block T) (first : Nat),
    first = pre.length →
    destroy_n (pre ++ (ys.map some ++ post)) first ys.length
      = .ok (pre ++ (List.replicate ys.length none ++ post)) := by
  induction ys with
  | nil => intro pre post first _; simp [destroy_n]
  | cons y ys ih =>
    intro pre post first hf
    have h := ih (pre ++ [none]) post (first + 1) (by simp [hf])
    simp only [List.append_assoc, List.singleton_append] at h
    simp [destroy_n, destroy_at_mid pre _ y first hf, h, List.replicate_succ]

theorem uninitialized_value_construct_n_spec [Element T] (mid : Block T) :
    ∀ (pre post : Block T) (first : Nat), first = pre.length →
    uninitialized_value_construct_n (pre ++ (mid ++ post)) first mid.length
      = .ok (pre ++ (List.replicate mid.length (some (Element.valueInit : T)) ++ post)) := by
  induction mid with
  | nil => intro pre post first _; simp [uninitialized_value_construct_n]
  | cons m mid ih =>
    intro pre post first hf
    have h := ih (pre ++ [some (Element.valueInit : T)]) post (first + 1) (by simp [hf])
    simp only [List.append_assoc, List.singleton_append] at h
    simp [uninitialized_value_construct_n, construct_at_mid pre _ m _ first hf, h,
      List.replicate_succ]

theorem uninitialized_copy_n_spec (ys : List T) :
    ∀ (spre spost dpre mid dpost : Block T) (first d_first : Nat),
    first = spre.length → d_first = dpre.length → mid.length = ys.length →
    uninitialized_copy_n (spre ++ (ys.map some ++ spost)) first ys.length
        (dpre ++ (mid ++ dpost)) d_first
      = .ok (dpre ++ (ys.map some ++ dpost)) := by
  induction ys with
  | nil =>
    intro spre spost dpre mid dpost first d_first _ _ hm
    have : mid = [] := List.length_eq_zero.mp (by simpa using hm)
    simp [uninitialized_copy_n, this]
  | cons y ys ih =>
    intro spre spost dpre mid dpost first d_first hf hd hm
    cases mid with
    | nil => simp at hm
    | cons m mid =>
      have h := ih (spre ++ [some y]) spost (dpre ++ [some y]) mid dpost (first + 1)
        (d_first + 1) (by simp [hf]) (by simp [hd]) (by simpa using hm)
      simp only [List.append_assoc, List.singleton_append] at h
      simp [uninitialized_copy_n, readLive_mid spre _ y first hf,
        construct_at_mid dpre _ m y d_first hd, h]

theorem uninitialized_move_n_spec [Element T] (ys : List T) :
    ∀ (spre spost dpre mid dpost : Block T) (first d_first : Nat),
    first = spre.length → d_first = dpre.length → mid.length = ys.length →
    uninitialized_move_n (spre ++ (ys.map some ++ spost)) first ys.length
        (dpre ++ (mid ++ dpost)) d_first
      = .ok (spre ++ ((ys.map Element.movedFrom).map some ++ spost),
          dpre ++ (ys.map some ++ dpost)) := by
  induction ys with
  | nil =>
    intro spre spost dpre mid dpost first d_first _ _ hm
    have : mid = [] := List.length_eq_zero.mp (by simpa using hm)
    simp [uninitialized_move_n, this]
  | cons y ys ih =>
    intro spre spost dpre mid dpost first d_first hf hd hm
    cases mid with
    | nil => simp at hm
    | cons m mid =>
      have h := ih (spre ++ [some (Element.movedFrom y)]) spost (dpre ++ [some y]) mid dpost
        (first + 1) (d_first + 1) (by simp [hf]) (by simp [hd]) (by simpa using hm)
      simp only [List.append_assoc, List.singleton_append] at h
      simp [uninitialized_move_n, readLive_mid spre _ y first hf,
        construct_at_mid dpre _ m y d_first hd, set_mid spre _ (some y) _ first hf, h]

theorem copy_loop_spec (ys : List T) :
    ∀ (zs : List T) (spre spost dpre dpost : Block T) (first d_first : Nat),
    first = spre.length → d_first = dpre.length → zs.length = ys.length →
    copy_loop (spre ++ (ys.map some ++ spost)) first ys.length
        (dpre ++ (zs.map some ++ dpost)) d_first
      = .ok (dpre ++ (ys.map some ++ dpost)) := by
  induction ys with
  | nil =>
    intro zs spre spost dpre dpost first d_first _ _ hm
    have : zs = [] := List.length_eq_zero.mp (by simpa using hm)
    simp [copy_loop, this]
  | cons y ys ih =>
    intro zs spre spost dpre dpost first d_first hf hd hm
    cases zs with
    | nil => simp at hm
    | cons z zs =>
      have h := ih zs (spre ++ [some y]) spost (dpre ++ [some y]) dpost (first + 1)
        (d_first + 1) (by simp [hf]) (by simp [hd]) (by simpa using hm)
      simp only [List.append_assoc, List.singleton_append] at h
      simp [copy_loop, readLive_mid spre _ y first hf,
        assign_at_mid dpre _ z y d_first hd, h]

theorem readRange_spec (ys : List T) : ∀ (pre post : Block T) (first : Nat),
    first = pre.length →
    readRange (pre ++ (ys.map some ++ post)) first ys.length = .ok ys := by
  induction ys with
  | nil => intro pre post first _; simp [readRange]
  | cons y ys ih =>
    intro pre post first hf
    have h := ih (pre ++ [some y]) post (first + 1) (by simp [hf])
    simp only [List.append_assoc, List.singleton_append] at h
    simp [readRange, readLive_mid pre _ y first hf, h]

theorem move_assign_within_left [Element T] (pre post : Block T) (z y : T) (i j : Nat)
    (hj : j = pre.length) (hi : i = pre.length + 1) :
    move_assign_within (pre ++ some z :: some y :: post) i j
      = .ok (pre ++ some y :: some (Element.movedFrom y) :: post) := by
  have hr : readLive (pre ++ some z :: some y :: post) i = .ok y := by
    have := readLive_mid (pre ++ [some z]) post y i (by simp [hi])
    simpa using this
  have hs : (pre ++ some y :: some y :: post).set i (some (Element.movedFrom y))
      = pre ++ some y :: some (Element.movedFrom y) :: post := by
    have := set_mid (pre ++ [some y]) post (some y) (some (Element.movedFrom y)) i
      (by simp [hi])
    simpa using this
  simp [move_assign_within, hr, assign_at_mid pre _ z y j hj, hs]

theorem move_assign_within_right [Element T] (pre post : Block T) (y z : T) (i j : Nat)
    (hi : i = pre.length) (hj : j = pre.length + 1) :
    move_assign_within (pre ++ some y :: some z :: post) i j
      = .ok (pre ++ some (Element.movedFrom y) :: some y :: post) := by
  have ha : assign_at (pre ++ some y :: some z :: post) j y
      = .ok (pre ++ some y :: some y :: post) := by
    have := assign_at_mid (pre ++ [some y]) post z y j (by simp [hj])
    simpa using this
  simp [move_assign_within, readLive_mid pre _ y i hi, ha, set_mid pre _ (some y) _ i hi]

theorem ranges_move_loop_spec [Element T] (ys : List T) :
    ∀ (pre post : Block T) (z : T) (first d_first : Nat),
    d_first = pre.length → first = pre.length + 1 →
    ∃ w, ranges_move_loop (pre ++ some z :: (ys.map some ++ post)) first d_first ys.length
      = .ok (pre ++ (ys.map some ++ some w :: post)) := by
  induction ys with
  | nil => intro pre post z first d_first _ _; exact ⟨z, by simp [ranges_move_loop]⟩
  | cons y ys ih =>
    intro pre post z first d_first hd hf
    obtain ⟨w, h⟩ := ih (pre ++ [some y]) post (Element.movedFrom y) (first + 1)
      (d_first + 1) (by simp [hd]) (by simp [hf])
    simp only [List.append_assoc, List.singleton_append] at h
    refine ⟨w, ?_⟩
    have hm := move_assign_within_left pre (ys.map some ++ post) z y first d_first hd hf
    simp only [ranges_move_loop, List.length_cons, List.map_cons, List.cons_append, hm,
      bind_ok, h]

theorem move_backward_loop_spec [Element T] (ys : List T) :
    ∀ (pre post : Block T) (z : T) (last d_last : Nat),
    last = pre.length + ys.length → d_last = last + 1 →
    ∃ w, move_backward_loop (pre ++ (ys.map some ++ some z :: post)) last d_last ys.length
      = .ok (pre ++ some w :: (ys.map some ++ post)) := by
  induction ys using List.reverseRecOn with
  | nil => intro pre post z last d_last _ _; exact ⟨z, by simp [move_backward_loop]⟩
  | append_singleton ys y ih =>
    intro pre post z last d_last hl hd
    obtain ⟨w, h⟩ := ih pre (some y :: post) (Element.movedFrom y) (last - 1) (d_last - 1)
      (by simp at hl; omega) (by simp at hl; omega)
    refine ⟨w, ?_⟩
    have hm := move_assign_within_right (pre ++ ys.map some) post y z (last - 1) (d_last - 1)
      (by simp at hl ⊢; omega) (by simp at hl ⊢; omega)
    simp only [List.append_assoc] at hm
    simp only [List.length_append, List.length_singleton, move_backward_loop, List.map_append,
      List.map_cons, List.map_nil, List.append_assoc, List.singleton_append, List.cons_append,
      List.nil_append, hm, bind_ok, h]

end CellLemmas

/-! ## The representation invariant -/

section Representation

variable {T : Type}

theorem cellsOf_length (xs : List T) (k : Nat) : (cellsOf xs k).length = xs.length + k := by
  simp [cellsOf]

theorem cellsOf_nil_zero : cellsOf ([] : List T) 0 = [] := by
  simp [cellsOf]

theorem take_cellsOf (xs : List T) (k : Nat) :
    (cellsOf xs k).take xs.length = xs.map some := by
  simp [cellsOf, List.take_append_eq_append_take]

theorem drop_cellsOf (xs : List T) (k : Nat) :
    (cellsOf xs k).drop xs.length = List.replicate k none := by
  simp [cellsOf, List.drop_append_eq_append_drop]

theorem map_some_reduceOption (l : Block T) (h : ∀ s ∈ l, s.isSome = true) :
    l.reduceOption.map some = l := by
  induction l with
  | nil => simp
  | cons a l ih =>
    cases a with
    | none => simp at h
    | some x =>
      have := ih (fun s hs => h s (List.mem_cons_of_mem _ hs))
      simp [List.reduceOption_cons_of_some, this]

theorem eq_replicate_none (l : Block T) (h : ∀ s ∈ l, s.isNone = true) :
    l = List.replicate l.length none := by
  induction l with
  | nil => simp
  | cons a l ih =>
    cases a with
    | some x => simp at h
    | none =>
      have := ih (fun s hs => h s (List.mem_cons_of_mem _ hs))
      simp [List.replicate_succ, ← this]

theorem reduceOption_map_some (xs : List T) : (xs.map some).reduceOption = xs := by
  induction xs with
  | nil => simp
  | cons x xs ih => simp [List.reduceOption_cons_of_some, ih]

theorem Vector.contents_rep (xs : List T) (k cap : Nat) :
    (Vector.rep xs k cap).contents = xs := by
  simp [Vector.contents, Vector.rep, take_cellsOf, reduceOption_map_some]

theorem Vector.size_rep (xs : List T) (k cap : Nat) :
    (Vector.rep xs k cap).Size = xs.length := rfl

theorem Vector.capacity_rep (xs : List T) (k cap : Nat) :
    (Vector.rep xs k cap).Capacity = cap := rfl

/-- A vector of the form `rep xs k cap` satisfies the invariant when its block has
`cap` cells or is null and holds nothing. -/
theorem Vector.wf_rep (xs : List T) (k cap : Nat)
    (h : xs.length + k = cap ∨ (xs = [] ∧ k = 0)) : (Vector.rep xs k cap).WF := by
  refine ⟨?_, ?_, ?_, ?_⟩
  · simp [Vector.rep, cellsOf]
  · intro s hs
    have : s ∈ xs.map some := by
      simpa [Vector.rep, take_cellsOf] using hs
    obtain ⟨x, _, rfl⟩ := List.mem_map.mp this
    rfl
  · intro s hs
    have : s ∈ List.replicate k (none : Slot T) := by
      simpa [Vector.rep, drop_cellsOf] using hs
    rw [(List.mem_replicate.mp this).2]
    rfl
  · rcases h with h | ⟨h1, h2⟩
    · right
      simp [Vector.rep, cellsOf, h]
    · left
      simp [Vector.rep, cellsOf, h1, h2]

/-- Every vector that satisfies the invariant is of the form `rep xs k cap`, with
`xs` its contents. -/
theorem Vector.WF.eq_rep {v : Vector T} (h : v.WF) :
    ∃ k, v = Vector.rep v.contents k v.data_.capacity_ ∧
      (v.contents.length + k = v.data_.capacity_ ∨ (v.contents = [] ∧ k = 0)) := by
  obtain ⟨⟨b, cap⟩, n⟩ := v
  obtain ⟨h1, h2, h3, h4⟩ := h
  simp only at h1 h2 h3 h4
  have hx : ((b.take n).reduceOption).map some = b.take n := map_some_reduceOption _ h2
  have hlen : ((b.take n).reduceOption).length = n := by
    have := congrArg List.length hx
    simpa [h1] using this
  have hd : b.drop n = List.replicate (b.length - n) none := by
    have := eq_replicate_none _ h3
    simpa using this
  have hb : b = cellsOf ((b.take n).reduceOption) (b.length - n) := by
    unfold cellsOf
    rw [hx, ← hd, List.take_append_drop]
  refine ⟨b.length - n, ?_, ?_⟩
  · simp only [Vector.contents, Vector.rep, hlen]
    rw [← hb]
  · simp only [Vector.contents, hlen]
    rcases h4 with h4 | h4
    · right
      subst h4
      simp
    · left
      omega

theorem Vector.WF.size_eq {v : Vector T} (h : v.WF) : v.size_ = v.contents.length := by
  obtain ⟨k, hv, _⟩ := h.eq_rep
  have := congrArg Vector.size_ hv
  simpa [Vector.rep] using this

end Representation

/-! ## The operations on vectors that satisfy the invariant -/

section Operations

variable {T : Type}

theorem replicate_split {α : Type} (a : α) (n m : Nat) (h : m ≤ n) :
    List.replicate n a = List.replicate m a ++ List.replicate (n - m) a := by
  rw [← List.replicate_add]
  congr 1
  omega

theorem RawMemory.Allocate_eq (n : Nat) :
    (RawMemory.Allocate n : Block T) = List.replicate n none := by
  unfold RawMemory.Allocate
  split
  · rfl
  · have : n = 0 := by omega
    simp [this]

theorem Vector.MoveOrCopy_spec [Element T] (ys : List T) (spre spost dpre mid dpost : Block T)
    (first d_first : Nat) (hf : first = spre.length) (hd : d_first = dpre.length)
    (hm : mid.length = ys.length) :
    ∃ zs : List T, zs.length = ys.length ∧
      Vector.MoveOrCopy (spre ++ (ys.map some ++ spost)) first ys.length
          (dpre ++ (mid ++ dpost)) d_first
        = .ok (spre ++ (zs.map some ++ spost), dpre ++ (ys.map some ++ dpost)) := by
  unfold Vector.MoveOrCopy
  split
  · exact ⟨ys.map Element.movedFrom, by simp,
      uninitialized_move_n_spec ys spre spost dpre mid dpost first d_first hf hd hm⟩
  · exact ⟨ys, rfl, by
      simp [uninitialized_copy_n_spec ys spre spost dpre mid dpost first d_first hf hd hm]⟩

theorem Vector.ofSize_eq [Element T] (n : Nat) :
    (Vector.ofSize n : Except Fault (Vector T))
      = .ok (Vector.rep (List.replicate n Element.valueInit) 0 n) := by
  have h := uninitialized_value_construct_n_spec (List.replicate n (none : Slot T)) [] [] 0 rfl
  simp only [List.nil_append, List.append_nil, List.length_replicate] at h
  simp [Vector.ofSize, RawMemory.ofCapacity, RawMemory.Allocate_eq, h, Vector.rep, cellsOf]

theorem Vector.copyCtor_rep (xs : List T) (k cap : Nat) :
    Vector.copyCtor (Vector.rep xs k cap) = .ok (Vector.rep xs 0 xs.length) := by
  have h := uninitialized_copy_n_spec xs [] (List.replicate k none) []
    (List.replicate xs.length none) [] 0 0 rfl rfl (by simp)
  simp only [List.nil_append, List.append_nil] at h
  simp [Vector.copyCtor, RawMemory.ofCapacity, RawMemory.Allocate_eq, Vector.rep, cellsOf, h]

theorem Vector.destroy_rep (xs : List T) (k cap : Nat) :
    Vector.destroy (Vector.rep xs k cap) = .ok () := by
  have h := destroy_n_spec xs [] (List.replicate k none) 0 rfl
  simp only [List.nil_append] at h
  simp [Vector.destroy, Vector.rep, cellsOf, h]

theorem Vector.Reserve_rep_le [Element T] (xs : List T) (k cap n : Nat) (h : n ≤ cap) :
    Vector.Reserve (Vector.rep xs k cap) n = .ok (Vector.rep xs k cap) := by
  simp [Vector.Reserve, RawMemory.Capacity, Vector.rep, h]

theorem Vector.Reserve_rep_gt [Element T] (xs : List T) (k cap n : Nat) (h : cap < n)
    (hx : xs.length ≤ n) :
    Vector.Reserve (Vector.rep xs k cap) n = .ok (Vector.rep xs (n - xs.length) n) := by
  obtain ⟨zs, hz, hm⟩ := Vector.MoveOrCopy_spec xs [] (List.replicate k none) []
    (List.replicate xs.length none) (List.replicate (n - xs.length) none) 0 0 rfl rfl (by simp)
  simp only [List.nil_append, ← replicate_split none n xs.length hx] at hm
  have hdn := destroy_n_spec zs [] (List.replicate k none) 0 rfl
  simp only [List.nil_append, hz] at hdn
  have hc : ¬ n ≤ cap := by omega
  simp [Vector.Reserve, RawMemory.Capacity, Vector.rep, hc, RawMemory.ofCapacity,
    RawMemory.Allocate_eq, cellsOf, hm, hdn, RawMemory.Swap]

end Operations

section Append

variable {T : Type}

theorem cellsOf_snoc (xs : List T) (x : T) (k : Nat) :
    cellsOf (xs ++ [x]) k = xs.map some ++ some x :: List.replicate k none := by
  simp [cellsOf]

theorem cellsOf_succ (xs : List T) (k : Nat) :
    cellsOf xs (k + 1) = xs.map some ++ none :: List.replicate k none := by
  simp [cellsOf, List.replicate_succ]

/-- Appending in place: the block has a raw cell after the last element. -/
theorem Vector.EmplaceBack_rep_inplace [Element T] (xs : List T) (k cap : Nat) (x : T)
    (h : xs.length < cap) :
    Vector.EmplaceBack (Vector.rep xs (k + 1) cap) x
      = .ok (Vector.rep (xs ++ [x]) k cap, xs.length) := by
  have hc := construct_at_mid (xs.map some) (List.replicate k none) none x xs.length (by simp)
  have h1 : ¬ xs.length = cap := by omega
  have h2 : xs.length ≤ cap := by omega
  simp [Vector.EmplaceBack, Vector.rep, RawMemory.Capacity, RawMemory.add, Vector.index,
    RawMemory.index, h1, h2, h, cellsOf_succ, hc, cellsOf_snoc]

/-- Appending to a full vector: the elements are relocated to a block of capacity
`max(1, 2 * size)`. -/
theorem Vector.EmplaceBack_rep_full [Element T] (xs : List T) (k : Nat) (x : T) :
    Vector.EmplaceBack (Vector.rep xs k xs.length) x
      = .ok (Vector.rep (xs ++ [x]) ((if xs.length = 0 then 1 else xs.length * 2)
            - xs.length - 1) (if xs.length = 0 then 1 else xs.length * 2), xs.length) := by
  generalize hc : (if xs.length = 0 then 1 else xs.length * 2) = c
  have hlt : xs.length < c := by
    subst hc
    split <;> omega
  have hr : List.replicate c (none : Slot T)
      = List.replicate xs.length none ++ none :: List.replicate (c - xs.length - 1) none := by
    rw [replicate_split none c xs.length (by omega)]
    have : c - xs.length = (c - xs.length - 1) + 1 := by omega
    rw [this, List.replicate_succ]
    simp
  have hcon := construct_at_mid (List.replicate xs.length (none : Slot T))
    (List.replicate (c - xs.length - 1) none) none x xs.length (by simp)
  obtain ⟨zs, hz, hm⟩ := Vector.MoveOrCopy_spec xs [] (List.replicate k none) []
    (List.replicate xs.length none) (some x :: List.replicate (c - xs.length - 1) none) 0 0
    rfl rfl (by simp)
  simp only [List.nil_append] at hm
  have hdn := destroy_n_spec zs [] (List.replicate k none) 0 rfl
  simp only [List.nil_append, hz] at hdn
  have h2 : xs.length ≤ c := by omega
  simp [Vector.EmplaceBack, Vector.rep, RawMemory.Capacity, RawMemory.add, Vector.index,
    RawMemory.index, hc, RawMemory.ofCapacity, RawMemory.Allocate_eq, h2, hlt, hr, hcon, cellsOf,
    hm, hdn, RawMemory.Swap]

/-- Appending to a vector whose block was moved away while its capacity stayed
positive writes through the null pointer. -/
theorem Vector.EmplaceBack_rep_null [Element T] (cap : Nat) (x : T) (h : 0 < cap) :
    Vector.EmplaceBack (Vector.rep ([] : List T) 0 cap) x = .error .outOfBlock := by
  have h1 : ¬ 0 = cap := by omega
  simp [Vector.EmplaceBack, Vector.rep, RawMemory.Capacity, RawMemory.add, h1, cellsOf,
    construct_at]

theorem Vector.PopBack_rep_snoc (ys : List T) (y : T) (k cap : Nat) :
    Vector.PopBack (Vector.rep (ys ++ [y]) k cap) = .ok (Vector.rep ys (k + 1) cap) := by
  have h := destroy_n_spec [y] (ys.map some) (List.replicate k none) ys.length (by simp)
  simp only [List.map_cons, List.map_nil, List.singleton_append, List.length_singleton,
    List.replicate_one] at h
  simp [Vector.PopBack, Vector.rep, cellsOf_snoc, cellsOf_succ, h]

theorem Vector.PopBack_rep_nil (k cap : Nat) :
    Vector.PopBack (Vector.rep ([] : List T) k cap) = .ok (Vector.rep [] k cap) := by
  simp [Vector.PopBack, Vector.rep]

theorem cellsOf_split (pre : List T) (z : T) (suf : List T) (k : Nat) :
    cellsOf (pre ++ z :: suf) k
      = pre.map some ++ some z :: (suf.map some ++ List.replicate k none) := by
  simp [cellsOf]

theorem Vector.get_rep (xs : List T) (k cap i : Nat) (hi : i < xs.length) (hc : xs.length ≤ cap) :
    (Vector.rep xs k cap).get i = .ok (xs[i]) := by
  have hx : xs.take i ++ xs[i] :: xs.drop (i + 1) = xs := by
    rw [List.getElem_cons_drop, List.take_append_drop]
  have hr := readLive_mid ((xs.take i).map some)
    ((xs.drop (i + 1)).map some ++ List.replicate k none) xs[i] i (by simp; omega)
  rw [← cellsOf_split, hx] at hr
  have h2 : i < cap := by omega
  simp only [Vector.get, Vector.index, RawMemory.index, Vector.rep, hi, h2, if_true, bind_ok, hr]

theorem Vector.traverse_rep (xs : List T) (k cap : Nat) :
    (Vector.rep xs k cap).traverse = .ok xs := by
  have h := readRange_spec xs [] (List.replicate k none) 0 rfl
  simp only [List.nil_append] at h
  simp [Vector.traverse, Vector.rep, cellsOf, h]

end Append

section ResizeErase

variable {T : Type}

theorem cellsOf_append (pre suf : List T) (k : Nat) :
    cellsOf (pre ++ suf) k = pre.map some ++ (suf.map some ++ List.replicate k none) := by
  simp [cellsOf]

theorem cellsOf_raw_add (xs : List T) (m k : Nat) :
    cellsOf xs (m + k) = xs.map some ++ (List.replicate m none ++ List.replicate k none) := by
  unfold cellsOf
  rw [List.replicate_add]

theorem Vector.Resize_rep_shrink [Element T] (pre suf : List T) (k cap : Nat)
    (h : suf ≠ []) :
    Vector.Resize (Vector.rep (pre ++ suf) k cap) pre.length
      = .ok (Vector.rep pre (suf.length + k) cap) := by
  have hd := destroy_n_spec suf (pre.map some) (List.replicate k none) pre.length (by simp)
  have hpos : 0 < suf.length := List.length_pos.mpr h
  have h1 : pre.length < pre.length + suf.length := by omega
  have h2 : pre.length + suf.length - pre.length = suf.length := by omega
  simp only [Vector.Resize, Vector.rep, List.length_append, h1, if_true, cellsOf_append,
    Nat.zero_add, h2, hd, bind_ok, pure_eq_ok, cellsOf_raw_add]

theorem Vector.Resize_rep_within [Element T] (xs : List T) (k cap m : Nat)
    (hc : xs.length + m ≤ cap) :
    Vector.Resize (Vector.rep xs (m + k) cap) (xs.length + m)
      = .ok (Vector.rep (xs ++ List.replicate m Element.valueInit) k cap) := by
  have hu := uninitialized_value_construct_n_spec (List.replicate m (none : Slot T))
    (xs.map some) (List.replicate k none) xs.length (by simp)
  simp only [List.length_replicate] at hu
  have h1 : ¬ xs.length + m < xs.length := by omega
  have h2 : xs.length + m - xs.length = m := by omega
  simp only [Vector.Resize, Vector.Reserve, RawMemory.Capacity, Vector.rep, h1, hc, if_true,
    if_false, pure_eq_ok, bind_ok, Nat.zero_add, h2, cellsOf_raw_add, hu]
  simp [cellsOf]

theorem Vector.Resize_rep_grow [Element T] (xs : List T) (k cap n : Nat) (hc : cap < n)
    (hx : xs.length ≤ n) :
    Vector.Resize (Vector.rep xs k cap) n
      = .ok (Vector.rep (xs ++ List.replicate (n - xs.length) Element.valueInit) 0 n) := by
  have hu := uninitialized_value_construct_n_spec (List.replicate (n - xs.length) (none : Slot T))
    (xs.map some) [] xs.length (by simp)
  simp only [List.length_replicate, List.append_nil] at hu
  have hsz : (Vector.rep xs k cap).size_ = xs.length := rfl
  have hlen : xs.length + (n - xs.length) = n := by omega
  unfold Vector.Resize
  rw [if_neg (by rw [hsz]; omega), Vector.Reserve_rep_gt xs k cap n hc hx]
  simp [Vector.rep, cellsOf, hu, hlen]

theorem Vector.Resize_rep_null [Element T] (cap n : Nat) (h0 : 0 < n) (hc : n ≤ cap) :
    Vector.Resize (Vector.rep ([] : List T) 0 cap) n = .error .outOfBlock := by
  obtain ⟨m, rfl⟩ : ∃ m, n = m + 1 := ⟨n - 1, by omega⟩
  simp [Vector.Resize, Vector.Reserve, RawMemory.Capacity, Vector.rep, hc, cellsOf,
    uninitialized_value_construct_n, construct_at]

/-- Erasing the element `z` that follows the prefix `pre`. -/
theorem Vector.Erase_rep [Element T] (pre : List T) (z : T) (suf : List T) (k cap : Nat) :
    Vector.Erase (Vector.rep (pre ++ z :: suf) k cap) pre.length
      = .ok (Vector.rep (pre ++ suf) (k + 1) cap, pre.length) := by
  obtain ⟨w, hw⟩ := ranges_move_loop_spec suf (pre.map some) (List.replicate k none) z
    (pre.length + 1) pre.length (by simp) (by simp)
  have hd := destroy_n_spec [w] (pre.map some ++ suf.map some) (List.replicate k none)
    (pre.length + suf.length) (by simp)
  simp only [List.map_cons, List.map_nil, List.singleton_append, List.length_singleton,
    List.replicate_one, List.append_assoc] at hd
  have hle : pre.length + 1 ≤ pre.length + (suf.length + 1) := by omega
  have hcnt : pre.length + (suf.length + 1) - (pre.length + 1) = suf.length := by omega
  simp only [Vector.Erase, Vector.begin, Vector.end_, RawMemory.GetAddress, Nat.sub_zero,
    Vector.rep, ranges_move, cellsOf_split, List.length_append,
    List.length_cons, Nat.zero_add, hle, if_true, hcnt, hw, bind_ok]
  have hidx : pre.length + (suf.length + 1) - 1 = pre.length + suf.length := by omega
  simp [hidx, hd, cellsOf, List.replicate_succ]

end ResizeErase

section EmplaceLemmas

variable {T : Type}

theorem move_construct_within_right [Element T] (pre post : Block T) (l : T) (i j : Nat)
    (hi : i = pre.length) (hj : j = pre.length + 1) :
    move_construct_within (pre ++ some l :: none :: post) i j
      = .ok (pre ++ some (Element.movedFrom l) :: some l :: post) := by
  have hc : construct_at (pre ++ some l :: none :: post) j l
      = .ok (pre ++ some l :: some l :: post) := by
    have := construct_at_mid (pre ++ [some l]) post none l j (by simp [hj])
    simpa using this
  simp [move_construct_within, readLive_mid pre _ l i hi, hc, set_mid pre _ (some l) _ i hi]

theorem cellsOf_inplace (pre ys : List T) (l : T) (k : Nat) :
    cellsOf (pre ++ (ys ++ [l])) (k + 1)
      = (pre.map some ++ ys.map some) ++ some l :: none :: List.replicate k none := by
  simp [cellsOf, List.replicate_succ]

/-- Inserting in place before an element: `pre` is the prefix before the position,
`ys ++ [l]` the elements from the position on. -/
theorem Vector.Emplace_rep_inplace [Element T] (pre ys : List T) (l : T) (k cap : Nat) (x : T)
    (h : pre.length + ys.length + 1 < cap) :
    Vector.Emplace (Vector.rep (pre ++ (ys ++ [l])) (k + 1) cap) pre.length x
      = .ok (Vector.rep (pre ++ x :: (ys ++ [l])) k cap, pre.length) := by
  have hsz : (pre ++ (ys ++ [l])).length = pre.length + ys.length + 1 := by simp; omega
  have hmc := move_construct_within_right (pre.map some ++ ys.map some)
    (List.replicate k none) l (pre.length + ys.length) (pre.length + ys.length + 1)
    (by simp) (by simp)
  simp only [List.append_assoc] at hmc
  obtain ⟨w, hw⟩ := move_backward_loop_spec ys (pre.map some)
    (some l :: List.replicate k none) (Element.movedFrom l) (pre.length + ys.length)
    (pre.length + ys.length + 1) (by simp) rfl
  have ha := assign_at_mid (pre.map some) (ys.map some ++ some l :: List.replicate k none) w x
    pre.length (by simp)
  have e1 : ¬ pre.length + ys.length + 1 = cap := by omega
  have e2 : pre.length + ys.length + 1 ≤ cap := by omega
  have e3 : pre.length ≤ cap := by omega
  have e4 : pre.length < cap := by omega
  have e5 : pre.length + ys.length < cap := by omega
  have e6 : pre.length ≤ pre.length + ys.length := by omega
  have e7 : pre.length + ys.length - pre.length = ys.length := by omega
  have e8 : ¬ 0 = pre.length + ys.length + 1 := by omega
  simp only [Vector.Emplace, Vector.begin, Vector.end_, RawMemory.GetAddress, Nat.sub_zero,
    Nat.zero_add, Vector.rep, hsz, RawMemory.Capacity, e1, e8, if_false, ne_eq,
    Nat.add_one_ne_zero, not_false_eq_true, if_true, RawMemory.add, e2, bind_ok, Vector.index,
    Nat.add_sub_cancel, Nat.lt_succ_self, RawMemory.index, e5, cellsOf_inplace,
    List.append_assoc, hmc, e3, move_backward, e6, e7, hw, e4, ha, pure_eq_ok]
  simp [cellsOf]
  omega

/-- Inserting in place at `end()` of a non-empty vector: `std::move_backward` is
called on the range `[size, size - 1)`. -/
theorem Vector.Emplace_rep_inplace_end [Element T] (ys : List T) (l : T) (k cap : Nat) (x : T)
    (h : ys.length + 1 < cap) :
    Vector.Emplace (Vector.rep (ys ++ [l]) (k + 1) cap) (ys.length + 1) x
      = .error .invalidRange := by
  have hsz : (ys ++ [l]).length = ys.length + 1 := by simp
  have hmc := move_construct_within_right (ys.map some)
    (List.replicate k none) l ys.length (ys.length + 1) (by simp) (by simp)
  have hcell := cellsOf_inplace [] ys l k
  simp only [List.nil_append, List.map_nil] at hcell
  have e1 : ¬ ys.length + 1 = cap := by omega
  have e2 : ys.length + 1 ≤ cap := by omega
  have e5 : ys.length < cap := by omega
  have e6 : ¬ ys.length + 1 ≤ ys.length := by omega
  have e8 : ¬ 0 = ys.length + 1 := by omega
  simp only [Vector.Emplace, Vector.begin, Vector.end_, RawMemory.GetAddress, Nat.sub_zero,
    Nat.zero_add, Vector.rep, hsz, RawMemory.Capacity, e1, e8, if_false, ne_eq,
    Nat.add_one_ne_zero, not_false_eq_true, if_true, RawMemory.add, e2, bind_ok, Vector.index,
    Nat.add_sub_cancel, Nat.lt_succ_self, RawMemory.index, e5, hcell, hmc, move_backward, e6,
    bind_error]

/-- Inserting into an empty vector that has spare capacity. -/
theorem Vector.Emplace_rep_empty [Element T] (k cap pos : Nat) (x : T) (h : 0 < cap) :
    Vector.Emplace (Vector.rep ([] : List T) (k + 1) cap) pos x
      = .ok (Vector.rep [x] k cap, 0) := by
  have e1 : ¬ 0 = cap := by omega
  simp [Vector.Emplace, Vector.rep, RawMemory.Capacity, e1, cellsOf, List.replicate_succ,
    construct_at]

/-- Inserting into a vector whose block was moved away while its capacity stayed
positive writes through the null pointer. -/
theorem Vector.Emplace_rep_null [Element T] (cap pos : Nat) (x : T) (h : 0 < cap) :
    Vector.Emplace (Vector.rep ([] : List T) 0 cap) pos x = .error .outOfBlock := by
  have e1 : ¬ 0 = cap := by omega
  simp [Vector.Emplace, Vector.rep, RawMemory.Capacity, e1, cellsOf, construct_at]

end EmplaceLemmas

section EmplaceGrowth

variable {T : Type}

/-- Inserting into a full vector: the elements are relocated around the new one in
a block of capacity `max(1, 2 * size)`. -/
theorem Vector.Emplace_rep_full [Element T] (pre suf : List T) (k : Nat) (x : T) :
    Vector.Emplace (Vector.rep (pre ++ suf) k (pre ++ suf).length) pre.length x
      = .ok (Vector.rep (pre ++ x :: suf)
            ((if (pre ++ suf).length = 0 then 1 else (pre ++ suf).length * 2)
              - (pre ++ suf).length - 1)
            (if (pre ++ suf).length = 0 then 1 else (pre ++ suf).length * 2), pre.length) := by
  generalize hc : (if (pre ++ suf).length = 0 then 1 else (pre ++ suf).length * 2) = c
  have hsz : (pre ++ suf).length = pre.length + suf.length := by simp
  have hlt : pre.length + suf.length < c := by
    subst hc
    rw [hsz]
    split <;> omega
  rw [hsz] at hc ⊢
  set r := c - (pre.length + suf.length) - 1 with hr
  have hrep : List.replicate c (none : Slot T)
      = List.replicate pre.length none ++ none ::
          (List.replicate suf.length none ++ List.replicate r none) := by
    have e : c = pre.length + (1 + (suf.length + r)) := by omega
    conv_lhs => rw [e]
    simp only [List.replicate_add, List.replicate_one, List.singleton_append]
  have hcon := construct_at_mid (List.replicate pre.length (none : Slot T))
    (List.replicate suf.length none ++ List.replicate r none) none x pre.length (by simp)
  obtain ⟨zs1, hz1, hm1⟩ := Vector.MoveOrCopy_spec pre []
    (suf.map some ++ List.replicate k none) [] (List.replicate pre.length none)
    (some x :: (List.replicate suf.length none ++ List.replicate r none)) 0 0 rfl rfl (by simp)
  simp only [List.nil_append] at hm1
  obtain ⟨zs2, hz2, hm2⟩ := Vector.MoveOrCopy_spec suf (zs1.map some)
    (List.replicate k none) (pre.map some ++ [some x]) (List.replicate suf.length none)
    (List.replicate r none) pre.length (pre.length + 1) (by simp [hz1]) (by simp) (by simp)
  simp only [List.append_assoc, List.singleton_append] at hm2
  have hdn := destroy_n_spec (zs1 ++ zs2) [] (List.replicate k none) 0 rfl
  simp only [List.nil_append, List.map_append, List.append_assoc, List.length_append, hz1,
    hz2] at hdn
  have e1 : pre.length ≤ c := by omega
  have e2 : pre.length + suf.length - pre.length = suf.length := by omega
  simp only [Vector.Emplace, Vector.begin, Vector.end_, RawMemory.GetAddress, Nat.sub_zero,
    Vector.rep, hsz, RawMemory.Capacity, if_true, hc,
    RawMemory.ofCapacity, RawMemory.Allocate_eq, RawMemory.add, e1, bind_ok, hrep, hcon,
    cellsOf_append, hm1, Nat.zero_add, e2, hm2, hdn, RawMemory.Swap, pure_eq_ok]
  simp [cellsOf]
  omega

end EmplaceGrowth

section Assignment

variable {T : Type}

theorem Vector.copyAssign_self (d s : Vector T) : Vector.copyAssign true d s = .ok d := rfl

/-- Copy assignment when the source is larger than the capacity: copy and swap. -/
theorem Vector.copyAssign_rep_realloc (xs ys : List T) (k cap k2 cap2 : Nat)
    (h : cap < ys.length) :
    Vector.copyAssign false (Vector.rep xs k cap) (Vector.rep ys k2 cap2)
      = .ok (Vector.rep ys 0 ys.length) := by
  have hd := Vector.destroy_rep xs k cap
  unfold Vector.copyAssign
  have e : (Vector.rep ys k2 cap2).size_ > (Vector.rep xs k cap).data_.Capacity := h
  simp only [Bool.not_false, if_true, e, Vector.copyCtor_rep, bind_ok, Vector.Swap,
    RawMemory.Swap]
  simp only [Vector.rep] at hd ⊢
  simp [hd]

/-- Copy assignment in place when the source is not larger than the target: the
first elements are overwritten, the surplus `bs` is destroyed. -/
theorem Vector.copyAssign_rep_shrink (as bs ys : List T) (k cap k2 cap2 : Nat)
    (hl : as.length = ys.length) (h : ys.length ≤ cap) :
    Vector.copyAssign false (Vector.rep (as ++ bs) k cap) (Vector.rep ys k2 cap2)
      = .ok (Vector.rep ys (bs.length + k) cap) := by
  have hcp := copy_loop_spec ys as [] (List.replicate k2 none) []
    (bs.map some ++ List.replicate k none) 0 0 rfl rfl hl
  simp only [List.nil_append] at hcp
  have hd := destroy_n_spec bs (ys.map some) (List.replicate k none) ys.length (by simp)
  have e1 : ¬ ys.length > cap := by omega
  have e2 : min (as.length + bs.length) ys.length = ys.length := by omega
  have e3 : as.length + bs.length - ys.length = bs.length := by omega
  have hcy : cellsOf ys k2 = ys.map some ++ List.replicate k2 none := rfl
  simp only [Vector.copyAssign, Bool.not_false, if_true, Vector.rep, RawMemory.Capacity, e1,
    if_false, List.length_append, e2, Nat.zero_add, AdvancedVector.copy, Nat.zero_le,
    Nat.sub_zero, cellsOf_append, hcy, hcp, bind_ok, Vector.Size, cellsOf_raw_add]
  split
  · simp only [e3, hd, bind_ok, pure_eq_ok]
  · have e4 : bs.length = 0 := by omega
    have e5 : ys.length - (as.length + bs.length) = 0 := by omega
    have e6 : bs = [] := List.length_eq_zero.mp e4
    have e7 : ys.length - as.length = 0 := by omega
    simp [e5, e7, uninitialized_copy_n_within, e6]

/-- Copy assignment in place when the source is larger than the target but fits
its capacity: the call of `std::uninitialized_copy_n` reads the raw cell after the
last element of the target. -/
theorem Vector.copyAssign_rep_grow (xs as : List T) (b : T) (bs : List T)
    (k cap k2 cap2 : Nat) (hl : as.length = xs.length) (h : (as ++ b :: bs).length ≤ cap) :
    Vector.copyAssign false (Vector.rep xs (k + 1) cap) (Vector.rep (as ++ b :: bs) k2 cap2)
      = .error .notLive := by
  have hcp := copy_loop_spec as xs [] ((b :: bs).map some ++ List.replicate k2 none) []
    (List.replicate (k + 1) none) 0 0 rfl rfl hl.symm
  simp only [List.nil_append] at hcp
  have hr := readLive_raw (as.map some) (List.replicate k none) xs.length (by simp [hl])
  simp only [List.length_append, List.length_cons] at h
  have e1 : ¬ as.length + (bs.length + 1) > cap := by omega
  have e2 : min xs.length (as.length + (bs.length + 1)) = as.length := by omega
  have e3 : ¬ as.length + (bs.length + 1) < xs.length := by omega
  have e4 : as.length + (bs.length + 1) - xs.length = bs.length + 1 := by omega
  simp only [Vector.copyAssign, Bool.not_false, if_true, Vector.rep, RawMemory.Capacity,
    List.length_append, List.length_cons, e1, if_false, e2, Nat.zero_add,
    AdvancedVector.copy, Nat.zero_le, Nat.sub_zero, cellsOf_append, Vector.Size, e3, e4,
    uninitialized_copy_n_within]
  have hc1 : cellsOf xs (k + 1) = xs.map some ++ List.replicate (k + 1) none := rfl
  rw [hc1, hcp]
  simp only [bind_ok, List.replicate_succ, hr, bind_error]

/-- The same assignment into a target whose block was moved away. -/
theorem Vector.copyAssign_rep_grow_null (b : T) (bs : List T) (cap k2 cap2 : Nat)
    (h : (b :: bs).length ≤ cap) :
    Vector.copyAssign false (Vector.rep ([] : List T) 0 cap) (Vector.rep (b :: bs) k2 cap2)
      = .error .outOfBlock := by
  simp only [List.length_cons] at h
  have e1 : ¬ bs.length + 1 > cap := by omega
  simp [Vector.copyAssign, Vector.rep, RawMemory.Capacity, e1, AdvancedVector.copy, copy_loop,
    cellsOf, Vector.Size, uninitialized_copy_n_within, readLive]

theorem Vector.moveCtor_rep (xs : List T) (k cap : Nat) :
    Vector.moveCtor (Vector.rep xs k cap) = (Vector.rep xs k cap, Vector.rep [] 0 cap) := by
  simp [Vector.moveCtor, RawMemory.moveCtor, Vector.rep, cellsOf]

theorem Vector.moveAssign_rep (d : Vector T) (xs : List T) (k cap : Nat) :
    Vector.moveAssign false d (Vector.rep xs k cap)
      = (Vector.rep xs k cap, Vector.rep [] 0 cap) := by
  simp [Vector.moveAssign, RawMemory.moveAssign, Vector.rep, cellsOf]

theorem Vector.moveAssign_self (d s : Vector T) : Vector.moveAssign true d s = (d, d) := rfl

end Assignment

/-! ## Every operation preserves the representation invariant -/

section Preservation

variable {T : Type}

theorem Vector.wf_live (xs : List T) (k : Nat) : (Vector.rep xs k (xs.length + k)).WF :=
  Vector.wf_rep xs k _ (Or.inl rfl)

theorem Vector.wf_null (cap : Nat) : (Vector.rep ([] : List T) 0 cap).WF :=
  Vector.wf_rep [] 0 cap (Or.inr ⟨rfl, rfl⟩)

/-- Case analysis on a vector that satisfies the invariant: its block has
`capacity_` cells, or its pointer is null and it holds nothing. -/
theorem Vector.WF.elim {motive : Vector T → Prop}
    (live : ∀ (xs : List T) (k : Nat), motive (Vector.rep xs k (xs.length + k)))
    (null : ∀ cap : Nat, motive (Vector.rep ([] : List T) 0 cap))
    (v : Vector T) (h : v.WF) : motive v := by
  obtain ⟨k, hv, hs⟩ := h.eq_rep
  rw [hv]
  rcases hs with hs | ⟨h1, h2⟩
  · rw [← hs]
    exact live _ _
  · rw [h1, h2]
    exact null _

theorem Vector.new_eq_rep : (Vector.new : Vector T) = Vector.rep [] 0 0 := rfl

theorem Vector.wf_new : (Vector.new : Vector T).WF := Vector.wf_null 0

theorem Vector.ofSize_wf [Element T] (n : Nat) (v : Vector T) (h : Vector.ofSize n = .ok v) :
    v.WF := by
  rw [Vector.ofSize_eq] at h
  cases h
  exact Vector.wf_rep _ _ _ (Or.inl (by simp))

theorem Vector.copyCtor_wf (s c : Vector T) (hs : s.WF) (h : Vector.copyCtor s = .ok c) :
    c.WF := by
  revert h
  refine Vector.WF.elim (motive := fun s => Vector.copyCtor s = .ok c → c.WF) ?_ ?_ s hs
  · intro xs k h
    rw [Vector.copyCtor_rep] at h
    cases h
    exact Vector.wf_rep _ _ _ (Or.inl rfl)
  · intro cap h
    rw [Vector.copyCtor_rep] at h
    cases h
    exact Vector.wf_rep _ _ _ (Or.inl rfl)

theorem Vector.moveCtor_wf (a : Vector T) (ha : a.WF) :
    (Vector.moveCtor a).1.WF ∧ (Vector.moveCtor a).2.WF := by
  refine Vector.WF.elim
    (motive := fun a => (Vector.moveCtor a).1.WF ∧ (Vector.moveCtor a).2.WF) ?_ ?_ a ha
  · intro xs k
    rw [Vector.moveCtor_rep]
    exact ⟨Vector.wf_live xs k, Vector.wf_null _⟩
  · intro cap
    rw [Vector.moveCtor_rep]
    exact ⟨Vector.wf_null _, Vector.wf_null _⟩

theorem Vector.moveAssign_wf (b : Bool) (d s : Vector T) (hd : d.WF) (hs : s.WF) :
    (Vector.moveAssign b d s).1.WF ∧ (Vector.moveAssign b d s).2.WF := by
  cases b with
  | true => exact ⟨hd, hd⟩
  | false =>
    refine Vector.WF.elim (motive := fun s =>
      (Vector.moveAssign false d s).1.WF ∧ (Vector.moveAssign false d s).2.WF) ?_ ?_ s hs
    · intro xs k
      rw [Vector.moveAssign_rep]
      exact ⟨Vector.wf_live xs k, Vector.wf_null _⟩
    · intro cap
      rw [Vector.moveAssign_rep]
      exact ⟨Vector.wf_null _, Vector.wf_null _⟩

theorem Vector.Swap_wf (a b : Vector T) (ha : a.WF) (hb : b.WF) :
    (Vector.Swap a b).1.WF ∧ (Vector.Swap a b).2.WF := by
  obtain ⟨⟨ba, ca⟩, na⟩ := a
  obtain ⟨⟨bb, cb⟩, nb⟩ := b
  exact ⟨hb, ha⟩

theorem Vector.Reserve_wf [Element T] (v w : Vector T) (n : Nat) (hv : v.WF)
    (h : Vector.Reserve v n = .ok w) : w.WF := by
  revert h
  refine Vector.WF.elim (motive := fun v => Vector.Reserve v n = .ok w → w.WF) ?_ ?_ v hv
  · intro xs k h
    by_cases hn : n ≤ xs.length + k
    · rw [Vector.Reserve_rep_le _ _ _ _ hn] at h
      cases h
      exact Vector.wf_live xs k
    · rw [Vector.Reserve_rep_gt _ _ _ _ (by omega) (by omega)] at h
      cases h
      exact Vector.wf_rep _ _ _ (Or.inl (by omega))
  · intro cap h
    by_cases hn : n ≤ cap
    · rw [Vector.Reserve_rep_le _ _ _ _ hn] at h
      cases h
      exact Vector.wf_null cap
    · rw [Vector.Reserve_rep_gt _ _ _ _ (by omega) (by simp)] at h
      cases h
      exact Vector.wf_rep _ _ _ (Or.inl (by simp))

theorem Vector.Resize_wf [Element T] (v w : Vector T) (n : Nat) (hv : v.WF)
    (h : Vector.Resize v n = .ok w) : w.WF := by
  revert h
  refine Vector.WF.elim (motive := fun v => Vector.Resize v n = .ok w → w.WF) ?_ ?_ v hv
  · intro xs k h
    rcases Nat.lt_or_ge n xs.length with h1 | h1
    · have hx : xs = xs.take n ++ xs.drop n := (List.take_append_drop n xs).symm
      have hl : (xs.take n).length = n := by simp; omega
      have hne : xs.drop n ≠ [] := by
        intro he
        have := congrArg List.length he
        simp at this
        omega
      have hr := Vector.Resize_rep_shrink (xs.take n) (xs.drop n) k (xs.length + k) hne
      rw [← hx, hl, h] at hr
      cases hr
      exact Vector.wf_rep _ _ _ (Or.inl (by simp; omega))
    · rcases Nat.lt_or_ge (xs.length + k) n with h2 | h2
      · rw [Vector.Resize_rep_grow _ _ _ _ h2 h1] at h
        cases h
        exact Vector.wf_rep _ _ _ (Or.inl (by simp; omega))
      · obtain ⟨m, rfl⟩ : ∃ m, n = xs.length + m := ⟨n - xs.length, by omega⟩
        obtain ⟨j, rfl⟩ : ∃ j, k = m + j := ⟨k - m, by omega⟩
        rw [Vector.Resize_rep_within _ _ _ _ (by omega)] at h
        cases h
        exact Vector.wf_rep _ _ _ (Or.inl (by simp; omega))
  · intro cap h
    rcases Nat.lt_or_ge cap n with h2 | h2
    · rw [Vector.Resize_rep_grow _ _ _ _ h2 (by simp)] at h
      cases h
      exact Vector.wf_rep _ _ _ (Or.inl (by simp))
    · rcases Nat.eq_zero_or_pos n with h0 | h0
      · subst h0
        have hr := Vector.Resize_rep_within ([] : List T) 0 cap 0 (by simp)
        simp only [List.length_nil, Nat.add_zero, List.replicate_zero, List.append_nil] at hr
        rw [hr] at h
        cases h
        exact Vector.wf_null cap
      · rw [Vector.Resize_rep_null _ _ h0 h2] at h
        cases h

end Preservation

section Preservation2

variable {T : Type}

theorem eq_nil_or_snoc {α : Type} (xs : List α) : xs = [] ∨ ∃ ys y, xs = ys ++ [y] := by
  rcases List.eq_nil_or_concat xs with h | ⟨ys, y, h⟩
  · exact Or.inl h
  · exact Or.inr ⟨ys, y, by rw [h, List.concat_eq_append]⟩

theorem growth_gt (n : Nat) : n < (if n = 0 then 1 else n * 2) := by
  split <;> omega

theorem Vector.rep_cap_congr (xs : List T) (k c1 c2 : Nat) (h : c1 = c2) :
    Vector.rep xs k c1 = Vector.rep xs k c2 := by rw [h]

theorem Vector.EmplaceBack_wf [Element T] (v w : Vector T) (x : T) (r : Nat) (hv : v.WF)
    (h : Vector.EmplaceBack v x = .ok (w, r)) : w.WF := by
  revert h
  refine Vector.WF.elim (motive := fun v => Vector.EmplaceBack v x = .ok (w, r) → w.WF)
    ?_ ?_ v hv
  · intro xs k h
    cases k with
    | zero =>
      rw [Vector.rep_cap_congr xs 0 _ xs.length (by simp), Vector.EmplaceBack_rep_full] at h
      cases h
      have := growth_gt xs.length
      exact Vector.wf_rep _ _ _ (Or.inl (by simp; omega))
    | succ j =>
      rw [Vector.EmplaceBack_rep_inplace _ _ _ _ (by omega)] at h
      cases h
      exact Vector.wf_rep _ _ _ (Or.inl (by simp; omega))
  · intro cap h
    rcases Nat.eq_zero_or_pos cap with h0 | h0
    · subst h0
      have hf := Vector.EmplaceBack_rep_full ([] : List T) 0 x
      simp only [List.length_nil] at hf
      rw [hf] at h
      cases h
      exact Vector.wf_rep _ _ _ (Or.inl (by simp))
    · rw [Vector.EmplaceBack_rep_null _ _ h0] at h
      cases h

theorem Vector.PushBack_wf [Element T] (v w : Vector T) (x : T) (hv : v.WF)
    (h : Vector.PushBack v x = .ok w) : w.WF := by
  unfold Vector.PushBack at h
  cases he : Vector.EmplaceBack v x with
  | error e => simp [he] at h
  | ok p =>
    simp only [he, bind_ok, pure_eq_ok, Except.ok.injEq] at h
    subst h
    exact Vector.EmplaceBack_wf v p.1 x p.2 hv he

theorem Vector.PopBack_wf (v w : Vector T) (hv : v.WF) (h : Vector.PopBack v = .ok w) :
    w.WF := by
  revert h
  refine Vector.WF.elim (motive := fun v => Vector.PopBack v = .ok w → w.WF) ?_ ?_ v hv
  · intro xs k h
    rcases eq_nil_or_snoc xs with rfl | ⟨ys, y, rfl⟩
    · rw [Vector.PopBack_rep_nil] at h
      cases h
      exact Vector.wf_live [] k
    · rw [Vector.PopBack_rep_snoc] at h
      cases h
      exact Vector.wf_rep _ _ _ (Or.inl (by simp; omega))
  · intro cap h
    rw [Vector.PopBack_rep_nil] at h
    cases h
    exact Vector.wf_null cap

theorem Vector.Erase_wf [Element T] (v w : Vector T) (pos r : Nat) (hv : v.WF)
    (hp : pos < v.size_) (h : Vector.Erase v pos = .ok (w, r)) : w.WF := by
  revert h hp
  refine Vector.WF.elim
    (motive := fun v => pos < v.size_ → Vector.Erase v pos = .ok (w, r) → w.WF) ?_ ?_ v hv
  · intro xs k hp h
    have hp2 : pos < xs.length := hp
    have hx : xs.take pos ++ xs[pos] :: xs.drop (pos + 1) = xs := by
      rw [List.getElem_cons_drop, List.take_append_drop]
    have hl : (xs.take pos).length = pos := by simp; omega
    have he := Vector.Erase_rep (xs.take pos) xs[pos] (xs.drop (pos + 1)) k (xs.length + k)
    rw [hx, hl, h] at he
    cases he
    exact Vector.wf_rep _ _ _ (Or.inl (by simp; omega))
  · intro cap hp h
    exact absurd hp (Nat.not_lt_zero _)

theorem Vector.Emplace_wf [Element T] (v w : Vector T) (pos : Nat) (x : T) (r : Nat)
    (hv : v.WF) (hp : pos ≤ v.size_) (h : Vector.Emplace v pos x = .ok (w, r)) : w.WF := by
  revert h hp
  refine Vector.WF.elim
    (motive := fun v => pos ≤ v.size_ → Vector.Emplace v pos x = .ok (w, r) → w.WF) ?_ ?_ v hv
  · intro xs k hp h
    have hp2 : pos ≤ xs.length := hp
    have hx : xs.take pos ++ xs.drop pos = xs := List.take_append_drop pos xs
    have hl : (xs.take pos).length = pos := by simp; omega
    cases k with
    | zero =>
      have he := Vector.Emplace_rep_full (xs.take pos) (xs.drop pos) 0 x
      rw [hx, hl] at he
      rw [Vector.rep_cap_congr xs 0 _ xs.length (by simp), he] at h
      cases h
      have := growth_gt xs.length
      refine Vector.wf_rep _ _ _ (Or.inl ?_)
      have hlen : (xs.take pos ++ x :: xs.drop pos).length = xs.length + 1 := by
        rw [List.length_append, List.length_cons, ← Nat.add_assoc, ← List.length_append, hx]
      omega
    | succ j =>
      rcases Nat.lt_or_ge pos xs.length with h1 | h1
      · have hne : xs.drop pos ≠ [] := by
          intro he
          have := congrArg List.length he
          simp at this
          omega
        have hd := List.dropLast_append_getLast hne
        have he := Vector.Emplace_rep_inplace (xs.take pos) (xs.drop pos).dropLast
          ((xs.drop pos).getLast hne) j (xs.length + (j + 1)) x (by
            have := congrArg List.length hd
            simp at this
            simp
            omega)
        rw [hd, hx, hl, h] at he
        cases he
        refine Vector.wf_rep _ _ _ (Or.inl ?_)
        have hlen : (xs.take pos ++ x :: xs.drop pos).length = xs.length + 1 := by
          rw [List.length_append, List.length_cons, ← Nat.add_assoc, ← List.length_append, hx]
        omega
      · have hpe : pos = xs.length := by omega
        subst hpe
        rcases eq_nil_or_snoc xs with rfl | ⟨ys, l, rfl⟩
        · rw [Vector.Emplace_rep_empty _ _ _ _ (by omega)] at h
          cases h
          exact Vector.wf_rep _ _ _ (Or.inl (by simp; omega))
        · have he := Vector.Emplace_rep_inplace_end ys l j ((ys ++ [l]).length + (j + 1)) x
            (by simp)
          simp only [List.length_append, List.length_singleton] at he h
          rw [he] at h
          cases h
  · intro cap hp h
    have hp0 : pos = 0 := Nat.le_zero.mp hp
    subst hp0
    rcases Nat.eq_zero_or_pos cap with h0 | h0
    · subst h0
      have hf := Vector.Emplace_rep_full ([] : List T) [] 0 x
      simp only [List.append_nil, List.length_nil] at hf
      rw [hf] at h
      cases h
      exact Vector.wf_rep _ _ _ (Or.inl (by simp))
    · rw [Vector.Emplace_rep_null _ _ _ h0] at h
      cases h

end Preservation2

section Preservation3

variable {T : Type}

theorem Vector.copyAssign_rep_wf (xs ys : List T) (k cap k2 cap2 : Nat) (w : Vector T)
    (hd : xs.length + k = cap ∨ (xs = [] ∧ k = 0))
    (h : Vector.copyAssign false (Vector.rep xs k cap) (Vector.rep ys k2 cap2) = .ok w) :
    w.WF := by
  rcases Nat.lt_or_ge cap ys.length with h1 | h1
  · rw [Vector.copyAssign_rep_realloc _ _ _ _ _ _ h1] at h
    cases h
    exact Vector.wf_rep _ _ _ (Or.inl rfl)
  · rcases Nat.lt_or_ge xs.length ys.length with h2 | h2
    · have hy : ys.take xs.length ++ ys[xs.length] :: ys.drop (xs.length + 1) = ys := by
        rw [List.getElem_cons_drop, List.take_append_drop]
      have hl : (ys.take xs.length).length = xs.length := by simp; omega
      rcases hd with hd | ⟨hx, hk⟩
      · obtain ⟨j, rfl⟩ : ∃ j, k = j + 1 := ⟨k - 1, by omega⟩
        have he := Vector.copyAssign_rep_grow xs (ys.take xs.length) ys[xs.length]
          (ys.drop (xs.length + 1)) j cap k2 cap2 hl (by rw [hy]; exact h1)
        rw [hy, h] at he
        cases he
      · subst hx hk
        cases ys with
        | nil => simp at h2
        | cons b bs =>
          rw [Vector.copyAssign_rep_grow_null b bs cap k2 cap2 h1] at h
          cases h
    · have hx : xs.take ys.length ++ xs.drop ys.length = xs := List.take_append_drop _ xs
      have hl : (xs.take ys.length).length = ys.length := by simp; omega
      have he := Vector.copyAssign_rep_shrink (xs.take ys.length) (xs.drop ys.length) ys k cap
        k2 cap2 hl h1
      rw [hx, h] at he
      cases he
      refine Vector.wf_rep _ _ _ ?_
      rcases hd with hd | ⟨hx0, hk⟩
      · left
        simp
        omega
      · right
        subst hx0 hk
        have : ys = [] := List.length_eq_zero.mp (by simpa using h2)
        simp [this]

theorem Vector.copyAssign_wf (b : Bool) (d s w : Vector T) (hd : d.WF) (hs : s.WF)
    (h : Vector.copyAssign b d s = .ok w) : w.WF := by
  cases b with
  | true =>
    rw [Vector.copyAssign_self] at h
    cases h
    exact hd
  | false =>
    obtain ⟨k, hdv, hds⟩ := hd.eq_rep
    obtain ⟨k2, hsv, _⟩ := hs.eq_rep
    rw [hdv, hsv] at h
    exact Vector.copyAssign_rep_wf _ _ _ _ _ _ w hds h

/-- Every reachable vector satisfies the representation invariant. -/
theorem Vector.Reachable.wf [Element T] {v : Vector T} (h : Vector.Reachable v) : v.WF := by
  induction h with
  | ctor => exact Vector.wf_new
  | ctorSize n h => exact Vector.ofSize_wf n _ h
  | ctorCopy _ h ih => exact Vector.copyCtor_wf _ _ ih h
  | ctorMove _ ih => exact (Vector.moveCtor_wf _ ih).1
  | ctorMoveSource _ ih => exact (Vector.moveCtor_wf _ ih).2
  | reserve n _ h ih => exact Vector.Reserve_wf _ _ n ih h
  | resize n _ h ih => exact Vector.Resize_wf _ _ n ih h
  | pushBack x _ h ih => exact Vector.PushBack_wf _ _ x ih h
  | emplaceBack x r _ h ih => exact Vector.EmplaceBack_wf _ _ x r ih h
  | popBack _ h ih => exact Vector.PopBack_wf _ _ ih h
  | emplace pos x r _ hp h ih => exact Vector.Emplace_wf _ _ pos x r ih hp h
  | insert pos x r _ hp h ih => exact Vector.Emplace_wf _ _ pos x r ih hp h
  | erase pos r _ hp h ih => exact Vector.Erase_wf _ _ pos r ih hp h
  | swap _ _ iha ihb => exact (Vector.Swap_wf _ _ iha ihb).1
  | swapOther _ _ iha ihb => exact (Vector.Swap_wf _ _ iha ihb).2
  | copyAssign b _ _ h ihd ihs => exact Vector.copyAssign_wf b _ _ _ ihd ihs h
  | moveAssign b _ _ ihd ihs => exact (Vector.moveAssign_wf b _ _ ihd ihs).1
  | moveAssignSource b _ _ ihd ihs => exact (Vector.moveAssign_wf b _ _ ihd ihs).2

theorem Vector.WF.size_le_capacity {v : Vector T} (h : v.WF) : v.Size ≤ v.Capacity := by
  obtain ⟨h1, _, _, h4⟩ := h
  unfold Vector.Size Vector.Capacity RawMemory.Capacity
  rcases h4 with h4 | h4
  · rw [h4] at h1
    simp at h1
    omega
  · omega

end Preservation3

/-! ## Reading a vector, and appending to one -/

section Reading

variable {T : Type}

theorem Vector.WF.traverse {v : Vector T} (h : v.WF) : v.traverse = .ok v.contents := by
  obtain ⟨k, hv, _⟩ := h.eq_rep
  rw [hv, Vector.traverse_rep, Vector.contents_rep]

theorem Vector.WF.get {v : Vector T} (h : v.WF) (i : Nat) (hi : i < v.contents.length) :
    v.get i = .ok (v.contents[i]) := by
  obtain ⟨k, hv, hs⟩ := h.eq_rep
  have hc : v.contents.length ≤ v.data_.capacity_ := by
    rcases hs with hs | ⟨h1, _⟩
    · omega
    · simp [h1]
  have hg := Vector.get_rep v.contents k v.data_.capacity_ i hi hc
  rw [← hv] at hg
  exact hg

/-- An append to a vector whose block has `capacity_` cells succeeds, in place or
by relocation, and returns a reference to the last cell in use. -/
theorem Vector.EmplaceBack_live [Element T] (xs : List T) (k : Nat) (x : T) :
    ∃ j, Vector.EmplaceBack (Vector.rep xs k (xs.length + k)) x
      = .ok (Vector.rep (xs ++ [x]) j ((xs ++ [x]).length + j), xs.length) := by
  cases k with
  | zero =>
    have hg := growth_gt xs.length
    refine ⟨(if xs.length = 0 then 1 else xs.length * 2) - xs.length - 1, ?_⟩
    have e : (if xs.length = 0 then 1 else xs.length * 2)
        = (xs ++ [x]).length + ((if xs.length = 0 then 1 else xs.length * 2) - xs.length - 1) := by
      rw [List.length_append, List.length_singleton]
      omega
    rw [Vector.rep_cap_congr xs 0 _ xs.length (by simp), Vector.EmplaceBack_rep_full, ← e]
  | succ j =>
    refine ⟨j, ?_⟩
    have e : xs.length + (j + 1) = (xs ++ [x]).length + j := by
      rw [List.length_append, List.length_singleton]
      omega
    rw [Vector.EmplaceBack_rep_inplace _ _ _ _ (by omega), ← e]

theorem Vector.appendAll_live [Element T] (vs : List T) : ∀ (xs : List T) (k : Nat),
    ∃ j, Vector.appendAll (Vector.rep xs k (xs.length + k)) vs
      = .ok (Vector.rep (xs ++ vs) j ((xs ++ vs).length + j)) := by
  induction vs with
  | nil =>
    intro xs k
    exact ⟨k, by simp [Vector.appendAll]⟩
  | cons x vs ih =>
    intro xs k
    obtain ⟨j, hj⟩ := Vector.EmplaceBack_live xs k x
    obtain ⟨i, hi⟩ := ih (xs ++ [x]) j
    refine ⟨i, ?_⟩
    simp only [Vector.appendAll, Vector.PushBack, hj, bind_ok, pure_eq_ok, hi,
      List.append_assoc, List.singleton_append]

end Reading

/-! ## Insertion and removal on vectors that satisfy the invariant -/

section InsertErase

variable {T : Type}

/-- Erasing at a position below the size. -/
theorem Vector.Erase_spec [Element T] (v : Vector T) (p : Nat) (hv : v.WF) (hp : p < v.Size) :
    ∃ w : Vector T, Vector.Erase v p = .ok (w, p) ∧
      w.WF ∧
      w.data_.buffer_.length = v.data_.buffer_.length ∧
      w.contents = v.contents.take p ++ v.contents.drop (p + 1) ∧
      w.Size + 1 = v.Size ∧
      w.Capacity = v.Capacity := by
  obtain ⟨k, hrep, hs⟩ := hv.eq_rep
  have hsz : v.Size = v.contents.length := hv.size_eq
  have hbuf : v.data_.buffer_.length = v.contents.length + k := by
    have := congrArg (fun u : Vector T => u.data_.buffer_.length) hrep
    simpa [Vector.rep, cellsOf_length] using this
  generalize v.contents = xs at hrep hs hsz hbuf
  have hp2 : p < xs.length := by omega
  have hx : xs.take p ++ xs[p] :: xs.drop (p + 1) = xs := by
    rw [List.getElem_cons_drop, List.take_append_drop]
  have hl : (xs.take p).length = p := by simp; omega
  have he := Vector.Erase_rep (xs.take p) xs[p] (xs.drop (p + 1)) k v.data_.capacity_
  rw [hx, hl, ← hrep] at he
  have hlen : (xs.take p ++ xs.drop (p + 1)).length + 1 = xs.length := by
    have := congrArg List.length hx
    simp only [List.length_append, List.length_cons] at this ⊢
    omega
  have hw : (Vector.rep (xs.take p ++ xs.drop (p + 1)) (k + 1) v.data_.capacity_).WF := by
    refine Vector.wf_rep _ _ _ (Or.inl ?_)
    rcases hs with hs | ⟨h1, _⟩
    · omega
    · rw [h1] at hp2
      exact absurd hp2 (Nat.not_lt_zero _)
  refine ⟨_, he, hw, ?_, Vector.contents_rep _ _ _, ?_, rfl⟩
  · rw [hbuf]
    simp only [Vector.rep, cellsOf_length]
    omega
  · rw [Vector.size_rep, hsz]
    exact hlen

/-- Inserting at a position up to the size, into a vector that owns a block of
`capacity_` cells, except at `end()` of a non-empty vector with spare capacity. -/
theorem Vector.Emplace_spec [Element T] (v : Vector T) (p : Nat) (x : T) (hv : v.WF)
    (hb : v.data_.buffer_.length = v.Capacity) (hp : p ≤ v.Size)
    (hend : v.Size < v.Capacity → p = v.Size → v.Size = 0) :
    ∃ w : Vector T, Vector.Emplace v p x = .ok (w, p) ∧
      w.WF ∧
      w.data_.buffer_.length = w.Capacity ∧
      w.contents = v.contents.take p ++ x :: v.contents.drop p ∧
      w.Size = v.Size + 1 ∧
      (v.Size < v.Capacity → w.Capacity = v.Capacity) ∧
      (v.Size = v.Capacity → w.Capacity = if v.Size = 0 then 1 else v.Size * 2) := by
  obtain ⟨k, hrep, _⟩ := hv.eq_rep
  have hsz : v.Size = v.contents.length := hv.size_eq
  have hcap : v.Capacity = v.data_.capacity_ := rfl
  have hbuf : v.data_.buffer_.length = v.contents.length + k := by
    have := congrArg (fun u : Vector T => u.data_.buffer_.length) hrep
    simpa [Vector.rep, cellsOf_length] using this
  generalize v.contents = xs at hrep hsz hbuf
  have hc : v.data_.capacity_ = xs.length + k := by omega
  have hp2 : p ≤ xs.length := by omega
  have hx : xs.take p ++ xs.drop p = xs := List.take_append_drop p xs
  have hl : (xs.take p).length = p := by simp; omega
  have hlen : (xs.take p ++ x :: xs.drop p).length = xs.length + 1 := by
    rw [List.length_append, List.length_cons, ← Nat.add_assoc, ← List.length_append, hx]
  cases k with
  | zero =>
    have he := Vector.Emplace_rep_full (xs.take p) (xs.drop p) 0 x
    rw [hx, hl] at he
    have hv2 : v = Vector.rep xs 0 xs.length := by rw [hrep, hc]; rfl
    rw [← hv2] at he
    have hg := growth_gt xs.length
    refine ⟨_, he, Vector.wf_rep _ _ _ (Or.inl (by omega)), ?_, Vector.contents_rep _ _ _,
      ?_, ?_, ?_⟩
    · simp only [Vector.rep, cellsOf_length, Vector.Capacity, RawMemory.Capacity]
      omega
    · rw [Vector.size_rep, hlen, hsz]
    · intro h
      omega
    · intro _
      rw [Vector.capacity_rep, hsz]
  | succ j =>
    have hlt : v.Size < v.Capacity := by omega
    rcases Nat.lt_or_ge p xs.length with h1 | h1
    · have hne : xs.drop p ≠ [] := by
        intro he
        have := congrArg List.length he
        simp at this
        omega
      have hd := List.dropLast_append_getLast hne
      have he := Vector.Emplace_rep_inplace (xs.take p) (xs.drop p).dropLast
        ((xs.drop p).getLast hne) j v.data_.capacity_ x (by
          have := congrArg List.length hd
          simp at this
          simp
          omega)
      rw [hd, hx, hl, ← hrep] at he
      refine ⟨_, he, Vector.wf_rep _ _ _ (Or.inl (by omega)), ?_, Vector.contents_rep _ _ _,
        ?_, ?_, ?_⟩
      · simp only [Vector.rep, cellsOf_length, Vector.Capacity, RawMemory.Capacity]
        omega
      · rw [Vector.size_rep, hlen, hsz]
      · intro _
        rfl
      · intro h
        omega
    · have h0 : v.Size = 0 := hend hlt (by omega)
      have hx0 : xs = [] := List.length_eq_zero.mp (by omega)
      subst hx0
      have hp0 : p = 0 := by simpa using hp2
      subst hp0
      have he := Vector.Emplace_rep_empty j v.data_.capacity_ 0 x (by omega)
      rw [← hrep] at he
      refine ⟨_, he, Vector.wf_rep _ _ _ (Or.inl (by simp at hc ⊢; omega)), ?_, ?_, ?_, ?_, ?_⟩
      · simp only [Vector.rep, cellsOf_length, Vector.Capacity, RawMemory.Capacity]
        simp at hc ⊢
        omega
      · rw [Vector.contents_rep]
        rfl
      · rw [Vector.size_rep, h0]
        rfl
      · intro _
        rfl
      · intro h
        omega

/-- Inserting at a position and erasing at the same position restores the
sequence and the size, under the conditions of `Vector.Emplace_spec`. -/
theorem Vector.Insert_Erase_spec [Element T] (v : Vector T) (p : Nat) (x : T) (hv : v.WF)
    (hb : v.data_.buffer_.length = v.Capacity) (hp : p ≤ v.Size)
    (hend : v.Size < v.Capacity → p = v.Size → v.Size = 0) :
    ∃ u w : Vector T, Vector.Insert v p x = .ok (u, p) ∧ Vector.Erase u p = .ok (w, p) ∧
      w.WF ∧ w.contents = v.contents ∧ w.Size = v.Size ∧ v.Capacity ≤ w.Capacity := by
  obtain ⟨u, hu, huw, _, huc, hus, hcap1, hcap2⟩ := Vector.Emplace_spec v p x hv hb hp hend
  have hsz : v.Size = v.contents.length := hv.size_eq
  obtain ⟨w, hw, hww, _, hwc, hws, hwcap⟩ := Vector.Erase_spec u p huw (by omega)
  refine ⟨u, w, hu, hw, hww, ?_, by omega, ?_⟩
  · rw [hwc, huc]
    have hl : (v.contents.take p).length = p := by simp; omega
    have h1 : (v.contents.take p ++ x :: v.contents.drop p).take p = v.contents.take p := by
      rw [List.take_append_of_le_length (by omega)]
      rw [List.take_of_length_le (by omega)]
    have h2 : (v.contents.take p ++ x :: v.contents.drop p).drop (p + 1)
        = v.contents.drop p := by
      have e : v.contents.take p ++ x :: v.contents.drop p
          = (v.contents.take p ++ [x]) ++ v.contents.drop p := by simp
      have hl2 : (v.contents.take p ++ [x]).length = p + 1 := by
        rw [List.length_append, hl]
        rfl
      rw [e, ← hl2, List.drop_left]
    rw [h1, h2, List.take_append_drop]
  · rw [hwcap]
    rcases Nat.lt_or_ge v.Size v.Capacity with h | h
    · rw [hcap1 h]
    · have hwf := hv.size_le_capacity
      have he : v.Size = v.Capacity := by omega
      rw [hcap2 he]
      split <;> omega

end InsertErase

/-! ## The claims -/

section Claims

variable {T : Type}

/-- C1. Size/capacity invariant: every vector state reachable from a constructor
(`Vector()`, `Vector(n)`, copy, move) by any sequence of `Reserve`, `Resize`,
`PushBack`, `EmplaceBack`, `PopBack`, `Insert`/`Emplace` at a position up to the size,
`Erase` at a position below the size, `Swap`, copy assignment and move assignment
satisfies `Size() <= Capacity()`. -/
theorem C1_size_le_capacity [Element T] (v : Vector T) (h : Vector.Reachable v) :
    v.Size ≤ v.Capacity :=
  (Vector.Reachable.wf h).size_le_capacity

theorem C1_size_le_capacity_witness :
    Vector.Reachable (Vector.moveCtor (Vector.rep [0, 0] 0 2 : Vector Nat)).2 ∧
      (Vector.moveCtor (Vector.rep [0, 0] 0 2 : Vector Nat)).2.Size
        ≤ (Vector.moveCtor (Vector.rep [0, 0] 0 2 : Vector Nat)).2.Capacity :=
  ⟨Vector.Reachable.ctorMoveSource (Vector.Reachable.ctorSize 2 rfl),
    C1_size_le_capacity _ (Vector.Reachable.ctorMoveSource (Vector.Reachable.ctorSize 2 rfl))⟩

/-- C2. Append order preservation: for every list of values `vs`, appending them in
order to an empty vector by `PushBack` succeeds and yields a vector of size
`vs.length` whose traversal from `begin()` to `end()`, and whose `operator[]` at
every index, give the values of `vs` in order; and the next `EmplaceBack` of any
`x` returns a reference to index `Size() - 1`, which holds `x`. -/
theorem C2_append_order [Element T] (vs : List T) :
    ∃ v : Vector T, Vector.appendAll Vector.new vs = .ok v ∧
      v.Size = vs.length ∧
      v.traverse = .ok vs ∧
      (∀ (i : Nat) (hi : i < vs.length), v.get i = .ok (vs[i])) ∧
      (∀ x : T, ∃ w : Vector T, Vector.EmplaceBack v x = .ok (w, w.Size - 1) ∧
        w.Size = v.Size + 1 ∧ w.get (w.Size - 1) = .ok x ∧ w.traverse = .ok (vs ++ [x])) := by
  obtain ⟨j, hj⟩ := Vector.appendAll_live vs ([] : List T) 0
  simp only [List.nil_append, List.length_nil, Nat.zero_add] at hj
  refine ⟨_, hj, rfl, Vector.traverse_rep _ _ _, ?_, ?_⟩
  · intro i hi
    exact Vector.get_rep vs j _ i hi (by omega)
  · intro x
    obtain ⟨i, hi⟩ := Vector.EmplaceBack_live vs j x
    refine ⟨Vector.rep (vs ++ [x]) i ((vs ++ [x]).length + i), ?_, ?_, ?_,
      Vector.traverse_rep _ _ _⟩
    · rw [hi, Vector.size_rep]
      simp
    · simp [Vector.size_rep]
    · have hg := Vector.get_rep (vs ++ [x]) i ((vs ++ [x]).length + i) vs.length (by simp)
        (by omega)
      rw [Vector.size_rep]
      simpa using hg

end Claims

section Claims2

variable {T : Type}

/-- C3. Copy assignment in the non-reallocating branch with a larger source. The
claim says that after `d = s` the target equals the source also when
`d.Size() < s.Size() <= d.Capacity()`. On the code, with `d` empty of capacity 2
and `s` holding `[1, 2]`, the call of `std::uninitialized_copy_n` copies from the
raw cells of `d` itself, `d.data_ + d.size_`, to the start of `d`: the assignment
reads a cell that holds no object. -/
theorem C3_copy_assign_larger_source_in_place :
    ∃ d s : Vector Nat, Vector.Reserve Vector.new 2 = .ok d ∧
      Vector.appendAll Vector.new [1, 2] = .ok s ∧
      d.Size < s.Size ∧ s.Size ≤ d.Capacity ∧
      Vector.copyAssign false d s = .error .notLive :=
  ⟨Vector.rep [] 2 2, Vector.rep [1, 2] 0 2, rfl, rfl, by decide, by decide, rfl⟩

/-- C4. Re-use of a moved-from vector. The claim says that a vector that was moved
from can be appended to. On the code, moving from a vector of capacity 1 (by move
construction or by move assignment) leaves the source with size 0, a null block
and capacity 1, and the next `PushBack` constructs its element through the null
pointer. -/
theorem C4_append_to_moved_from :
    ∃ a : Vector Nat, Vector.ofSize 1 = .ok a ∧
      (Vector.moveCtor a).2.Size = 0 ∧ (Vector.moveCtor a).2.Capacity = 1 ∧
      (Vector.moveCtor a).2.data_.buffer_ = [] ∧
      Vector.PushBack (Vector.moveCtor a).2 5 = .error .outOfBlock ∧
      (Vector.moveAssign false Vector.new a).2.Size = 0 ∧
      (Vector.moveAssign false Vector.new a).2.Capacity = 1 ∧
      Vector.PushBack (Vector.moveAssign false Vector.new a).2 5 = .error .outOfBlock :=
  ⟨Vector.rep [0] 0 1, rfl, rfl, rfl, rfl, rfl, rfl, rfl, rfl⟩

/-- C5. Insertion at `end()` on the in-place path. The claim says that `Insert` at
every position up to `Size()` yields the sequence with the value inserted, also on
the in-place path at `p == Size()`. On the code, with a vector holding `[1]` in a
block of capacity 2, `Insert(end(), 9)` calls `std::move_backward` on the range
`[data_ + 1, data_ + 0)`, whose end is before its start. -/
theorem C5_insert_at_end_in_place :
    ∃ v : Vector Nat, (Vector.Reserve Vector.new 2 >>= fun u => Vector.PushBack u 1) = .ok v ∧
      v.traverse = .ok [1] ∧ v.Size = 1 ∧ v.Capacity = 2 ∧
      Vector.Insert v v.Size 9 = .error .invalidRange ∧
      Vector.Emplace v v.Size 9 = .error .invalidRange :=
  ⟨Vector.rep [1] 1 2, rfl, rfl, rfl, rfl, rfl, rfl⟩

/-- C7. Insert then erase at `end()` on the in-place path. The claim says that
`Insert(begin() + p, v)` followed by `Erase(begin() + p)` restores the sequence for
every `p` up to `Size()`. On the code, with a vector holding `[1]` in a block of
capacity 2 and `p = Size()`, the `Insert` already leaves defined behaviour (the
range given to `std::move_backward` ends before it starts), so the pair of calls
does not restore `[1]`. -/
theorem C7_insert_erase_at_end_in_place :
    ∃ v : Vector Nat, (Vector.Reserve Vector.new 2 >>= fun u => Vector.PushBack u 1) = .ok v ∧
      v.traverse = .ok [1] ∧ v.Size < v.Capacity ∧
      (Vector.Insert v v.Size 9 >>= fun r => Vector.Erase r.1 v.Size)
        = .error .invalidRange :=
  ⟨Vector.rep [1] 1 2, rfl, rfl, by decide, rfl⟩

end Claims2

section Claims3

variable {T : Type}

/-- C8. Copy construction round trip: for every reachable vector `s`, the copy
constructor succeeds and the copy `c` has `c.Size() == s.Size()`, `c[i] == s[i]` for
every `i < s.Size()` (so the same traversal), and `c.Capacity() == s.Size()`. The
source is taken by reference to const and is not part of the result. -/
theorem C8_copy_round_trip [Element T] (s : Vector T) (h : Vector.Reachable s) :
    ∃ c : Vector T, Vector.copyCtor s = .ok c ∧
      c.WF ∧
      c.Size = s.Size ∧
      (∀ i : Nat, i < s.Size → ∃ x : T, s.get i = .ok x ∧ c.get i = .ok x) ∧
      c.traverse = s.traverse ∧
      c.contents = s.contents ∧
      c.Capacity = s.Size := by
  have hs := Vector.Reachable.wf h
  obtain ⟨k, hrep, _⟩ := hs.eq_rep
  have hsz : s.size_ = s.contents.length := hs.size_eq
  have hc : Vector.copyCtor s = .ok (Vector.rep s.contents 0 s.contents.length) := by
    conv_lhs => rw [hrep]
    exact Vector.copyCtor_rep _ _ _
  have hw : (Vector.rep s.contents 0 s.contents.length).WF :=
    Vector.wf_rep _ _ _ (Or.inl rfl)
  refine ⟨_, hc, hw, ?_, ?_, ?_, Vector.contents_rep _ _ _, ?_⟩
  · rw [Vector.size_rep]
    exact hsz.symm
  · intro i hi
    have hi2 : i < s.contents.length := by
      unfold Vector.Size at hi
      omega
    exact ⟨s.contents[i], hs.get i hi2,
      Vector.get_rep s.contents 0 s.contents.length i hi2 (le_refl _)⟩
  · rw [Vector.traverse_rep, hs.traverse]
  · rw [Vector.capacity_rep]
    exact hsz.symm

theorem C8_copy_round_trip_witness :
    Vector.Reachable (Vector.rep [7, 8] 2 4 : Vector Nat) ∧
    ∃ c : Vector Nat, Vector.copyCtor (Vector.rep [7, 8] 2 4) = .ok c ∧
      c.WF ∧
      c.Size = (Vector.rep [7, 8] 2 4 : Vector Nat).Size ∧
      (∀ i : Nat, i < (Vector.rep [7, 8] 2 4 : Vector Nat).Size →
        ∃ x : Nat, (Vector.rep [7, 8] 2 4 : Vector Nat).get i = .ok x ∧ c.get i = .ok x) ∧
      c.traverse = (Vector.rep [7, 8] 2 4 : Vector Nat).traverse ∧
      c.contents = (Vector.rep [7, 8] 2 4 : Vector Nat).contents ∧
      c.Capacity = (Vector.rep [7, 8] 2 4 : Vector Nat).Size :=
  ⟨Vector.Reachable.pushBack 8
      (Vector.Reachable.pushBack 7 (Vector.Reachable.reserve 4 Vector.Reachable.ctor rfl) rfl)
      rfl,
    C8_copy_round_trip _ (Vector.Reachable.pushBack 8
      (Vector.Reachable.pushBack 7 (Vector.Reachable.reserve 4 Vector.Reachable.ctor rfl) rfl)
      rfl)⟩

/-- C9. Move transfers the value: for every vector `a` that satisfies the
representation invariant (as every reachable vector does), holding the sequence
`xs` with capacity `c`, the vector
move-constructed from `a`, and any vector `b` after `a` is move-assigned to it, is
in the state `a` was in: it holds exactly `xs`, with size `|xs|` and capacity `c`.
Move assignment of a vector to itself leaves it unchanged. -/
theorem C9_move_transfers (a b : Vector T) (ha : a.WF) :
    ((Vector.moveCtor a).1 = a ∧
      (Vector.moveCtor a).1.traverse = .ok a.contents ∧
      (Vector.moveCtor a).1.Size = a.contents.length ∧
      (Vector.moveCtor a).1.Capacity = a.Capacity) ∧
    ((Vector.moveAssign false b a).1 = a ∧
      (Vector.moveAssign false b a).1.traverse = .ok a.contents ∧
      (Vector.moveAssign false b a).1.Size = a.contents.length ∧
      (Vector.moveAssign false b a).1.Capacity = a.Capacity) ∧
    Vector.moveAssign true a a = (a, a) := by
  have h1 : (Vector.moveCtor a).1 = a := rfl
  have h2 : (Vector.moveAssign false b a).1 = a := rfl
  have hsz : a.Size = a.contents.length := ha.size_eq
  refine ⟨⟨h1, ?_, ?_, ?_⟩, ⟨h2, ?_, ?_, ?_⟩, rfl⟩
  · rw [h1]; exact ha.traverse
  · rw [h1]; exact hsz
  · rw [h1]
  · rw [h2]; exact ha.traverse
  · rw [h2]; exact hsz
  · rw [h2]

theorem C9_move_transfers_witness :
    (Vector.rep [4, 5] 1 3 : Vector Nat).WF ∧
    (((Vector.moveCtor (Vector.rep [4, 5] 1 3 : Vector Nat)).1 = Vector.rep [4, 5] 1 3 ∧
      (Vector.moveCtor (Vector.rep [4, 5] 1 3 : Vector Nat)).1.traverse
        = .ok (Vector.rep [4, 5] 1 3 : Vector Nat).contents ∧
      (Vector.moveCtor (Vector.rep [4, 5] 1 3 : Vector Nat)).1.Size
        = (Vector.rep [4, 5] 1 3 : Vector Nat).contents.length ∧
      (Vector.moveCtor (Vector.rep [4, 5] 1 3 : Vector Nat)).1.Capacity
        = (Vector.rep [4, 5] 1 3 : Vector Nat).Capacity) ∧
    ((Vector.moveAssign false (Vector.rep [9] 0 1) (Vector.rep [4, 5] 1 3 : Vector Nat)).1
        = Vector.rep [4, 5] 1 3 ∧
      (Vector.moveAssign false (Vector.rep [9] 0 1)
        (Vector.rep [4, 5] 1 3 : Vector Nat)).1.traverse
        = .ok (Vector.rep [4, 5] 1 3 : Vector Nat).contents ∧
      (Vector.moveAssign false (Vector.rep [9] 0 1) (Vector.rep [4, 5] 1 3 : Vector Nat)).1.Size
        = (Vector.rep [4, 5] 1 3 : Vector Nat).contents.length ∧
      (Vector.moveAssign false (Vector.rep [9] 0 1)
        (Vector.rep [4, 5] 1 3 : Vector Nat)).1.Capacity
        = (Vector.rep [4, 5] 1 3 : Vector Nat).Capacity) ∧
    Vector.moveAssign true (Vector.rep [4, 5] 1 3 : Vector Nat) (Vector.rep [4, 5] 1 3)
      = (Vector.rep [4, 5] 1 3, Vector.rep [4, 5] 1 3)) :=
  ⟨by decide, C9_move_transfers (Vector.rep [4, 5] 1 3) (Vector.rep [9] 0 1) (by decide)⟩

end Claims3

/-! ## Resize and PopBack on vectors that satisfy the invariant -/

section ResizePop

variable {T : Type}

/-- `Resize` on a vector that owns a block of `capacity_` cells. -/
theorem Vector.Resize_spec [Element T] (v : Vector T) (n : Nat) (hv : v.WF)
    (hb : v.data_.buffer_.length = v.Capacity) :
    ∃ w : Vector T, Vector.Resize v n = .ok w ∧
      w.WF ∧
      w.data_.buffer_.length = w.Capacity ∧
      w.Size = n ∧
      (n < v.Size → w.contents = v.contents.take n ∧ w.Capacity = v.Capacity) ∧
      (v.Size ≤ n →
        w.contents = v.contents ++ List.replicate (n - v.Size) (Element.valueInit : T) ∧
        w.Capacity = max v.Capacity n) := by
  obtain ⟨k, hrep, _⟩ := hv.eq_rep
  have hsz : v.Size = v.contents.length := hv.size_eq
  have hcap : v.Capacity = v.data_.capacity_ := rfl
  have hbuf : v.data_.buffer_.length = v.contents.length + k := by
    have := congrArg (fun u : Vector T => u.data_.buffer_.length) hrep
    simpa [Vector.rep, cellsOf_length] using this
  generalize v.contents = xs at hrep hsz hbuf
  have hc : v.data_.capacity_ = xs.length + k := by omega
  rcases Nat.lt_or_ge n xs.length with h1 | h1
  · have hx : xs = xs.take n ++ xs.drop n := (List.take_append_drop n xs).symm
    have hl : (xs.take n).length = n := by simp; omega
    have hdl : (xs.drop n).length = xs.length - n := by simp
    have hne : xs.drop n ≠ [] := by
      intro he
      rw [he] at hdl
      simp at hdl
      omega
    have hr := Vector.Resize_rep_shrink (xs.take n) (xs.drop n) k v.data_.capacity_ hne
    rw [← hx, hl, ← hrep] at hr
    refine ⟨_, hr, Vector.wf_rep _ _ _ (Or.inl (by omega)), ?_, ?_, ?_, ?_⟩
    · simp only [Vector.rep, cellsOf_length, Vector.Capacity, RawMemory.Capacity]
      omega
    · rw [Vector.size_rep, hl]
    · intro _
      exact ⟨Vector.contents_rep _ _ _, rfl⟩
    · intro h
      omega
  · rcases Nat.lt_or_ge (xs.length + k) n with h2 | h2
    · have hr := Vector.Resize_rep_grow xs k v.data_.capacity_ n (by omega) h1
      rw [← hrep] at hr
      refine ⟨_, hr, Vector.wf_rep _ _ _ (Or.inl (by simp; omega)), ?_, ?_, ?_, ?_⟩
      · simp only [Vector.rep, cellsOf_length, Vector.Capacity, RawMemory.Capacity]
        simp
        omega
      · rw [Vector.size_rep]
        simp
        omega
      · intro h
        omega
      · intro _
        refine ⟨?_, ?_⟩
        · rw [Vector.contents_rep, hsz]
        · rw [Vector.capacity_rep, hcap]
          omega
    · obtain ⟨m, rfl⟩ : ∃ m, n = xs.length + m := ⟨n - xs.length, by omega⟩
      obtain ⟨j, rfl⟩ : ∃ j, k = m + j := ⟨k - m, by omega⟩
      have hr := Vector.Resize_rep_within xs j v.data_.capacity_ m (by omega)
      rw [← hrep] at hr
      refine ⟨_, hr, Vector.wf_rep _ _ _ (Or.inl (by simp; omega)), ?_, ?_, ?_, ?_⟩
      · simp only [Vector.rep, cellsOf_length, Vector.Capacity, RawMemory.Capacity]
        simp
        omega
      · rw [Vector.size_rep]
        simp
      · intro h
        omega
      · intro _
        refine ⟨?_, ?_⟩
        · rw [Vector.contents_rep, hsz]
          simp
        · rw [Vector.capacity_rep, hcap]
          omega

/-- The scenario of the specification: append 1, 2, 3; insert 99 at position 1;
erase position 0; `Resize(5)`; `Resize(2)`. -/
theorem Vector.scenario :
    ∃ v1 v2 v3 v4 v5 : Vector Nat,
      Vector.appendAll Vector.new [1, 2, 3] = .ok v1 ∧ v1.traverse = .ok [1, 2, 3] ∧
      Vector.Insert v1 1 99 = .ok (v2, 1) ∧ v2.traverse = .ok [1, 99, 2, 3] ∧
      Vector.Erase v2 0 = .ok (v3, 0) ∧ v3.traverse = .ok [99, 2, 3] ∧
      Vector.Resize v3 5 = .ok v4 ∧ v4.traverse = .ok [99, 2, 3, 0, 0] ∧ v4.Size = 5 ∧
      Vector.Resize v4 2 = .ok v5 ∧ v5.traverse = .ok [99, 2] ∧ v5.Size = 2 ∧
      v5.Capacity = v4.Capacity :=
  ⟨Vector.rep [1, 2, 3] 1 4, Vector.rep [1, 99, 2, 3] 0 4, Vector.rep [99, 2, 3] 1 4,
    Vector.rep [99, 2, 3, 0, 0] 0 5, Vector.rep [99, 2] 3 5,
    rfl, rfl, rfl, rfl, rfl, rfl, rfl, rfl, rfl, rfl, rfl, rfl, rfl⟩

/-- `PopBack` on a vector that satisfies the invariant. -/
theorem Vector.PopBack_spec (v : Vector T) (hv : v.WF) :
    ∃ w : Vector T, Vector.PopBack v = .ok w ∧
      w.WF ∧
      w.contents = v.contents.dropLast ∧
      w.Size = v.Size - 1 ∧
      w.Capacity = v.Capacity ∧
      w.data_.buffer_.length = v.data_.buffer_.length := by
  obtain ⟨k, hrep, hs⟩ := hv.eq_rep
  have hsz : v.Size = v.contents.length := hv.size_eq
  generalize v.contents = xs at hrep hs hsz
  rcases eq_nil_or_snoc xs with rfl | ⟨ys, y, rfl⟩
  · have hr := Vector.PopBack_rep_nil (T := T) k v.data_.capacity_
    rw [← hrep] at hr
    refine ⟨v, hr, hv, ?_, ?_, rfl, rfl⟩
    · rw [hrep, Vector.contents_rep]
      rfl
    · rw [hsz]
      rfl
  · have hr := Vector.PopBack_rep_snoc ys y k v.data_.capacity_
    rw [← hrep] at hr
    have hw : (Vector.rep ys (k + 1) v.data_.capacity_).WF := by
      refine Vector.wf_rep _ _ _ (Or.inl ?_)
      rcases hs with hs | ⟨h1, _⟩
      · simp at hs
        omega
      · simp at h1
    refine ⟨_, hr, hw, ?_, ?_, rfl, ?_⟩
    · rw [Vector.contents_rep]
      simp
    · rw [Vector.size_rep, hsz]
      simp
    · conv_rhs => rw [hrep]
      simp only [Vector.rep, cellsOf_length, List.length_append, List.length_singleton]
      omega

end ResizePop

section Claims4

variable {T : Type}

/-- C11. Resize of a moved-from vector. The claim says that for every vector and
every `n >= Size()`, `Resize(n)` leaves the sequence followed by `n - size`
value-initialised elements. On the code, a vector of capacity 3 that was moved
from holds nothing, has a null block and still has capacity 3; `Resize(2)` then
finds `2 <= Capacity()`, reserves nothing and value-constructs two elements
through the null pointer. -/
theorem C11_resize_moved_from :
    ∃ a : Vector Nat, Vector.ofSize 3 = .ok a ∧
      (Vector.moveCtor a).2.traverse = .ok [] ∧
      (Vector.moveCtor a).2.Size = 0 ∧
      (Vector.moveCtor a).2.Capacity = 3 ∧
      (Vector.moveCtor a).2.data_.buffer_ = [] ∧
      Vector.Resize (Vector.moveCtor a).2 2 = .error .outOfBlock :=
  ⟨Vector.rep [0, 0, 0] 0 3, rfl, rfl, rfl, rfl, rfl, rfl⟩

/-- C17. PopBack: for every vector that satisfies the representation invariant (as
every reachable vector does) and holds the sequence `xs`, `PopBack()` succeeds; if
`Size() > 0` it leaves `xs` without its last element and `Size()` decremented by
one; if `Size() == 0` it leaves the vector as it is. In both cases `Capacity()` is
unchanged. -/
theorem C17_pop_back (v : Vector T) (hv : v.WF) :
    ∃ w : Vector T, Vector.PopBack v = .ok w ∧
      w.WF ∧
      w.Capacity = v.Capacity ∧
      (0 < v.Size →
        w.contents = v.contents.dropLast ∧ w.traverse = .ok v.contents.dropLast ∧
        w.Size + 1 = v.Size) ∧
      (v.Size = 0 → w = v) := by
  obtain ⟨w, hr, hw, hc, hs, hcap, _⟩ := Vector.PopBack_spec v hv
  refine ⟨w, hr, hw, hcap, ?_, ?_⟩
  · intro hpos
    refine ⟨hc, ?_, by omega⟩
    rw [hw.traverse, hc]
  · intro h0
    have : v.size_ = 0 := h0
    simp only [Vector.PopBack, this, ne_eq, not_true_eq_false, if_false, pure_eq_ok,
      Except.ok.injEq] at hr
    exact hr.symm

theorem C17_pop_back_witness :
    (Vector.rep [1, 2, 3] 1 4 : Vector Nat).WF ∧
    ∃ w : Vector Nat, Vector.PopBack (Vector.rep [1, 2, 3] 1 4) = .ok w ∧
      w.WF ∧
      w.Capacity = (Vector.rep [1, 2, 3] 1 4 : Vector Nat).Capacity ∧
      (0 < (Vector.rep [1, 2, 3] 1 4 : Vector Nat).Size →
        w.contents = (Vector.rep [1, 2, 3] 1 4 : Vector Nat).contents.dropLast ∧
        w.traverse = .ok (Vector.rep [1, 2, 3] 1 4 : Vector Nat).contents.dropLast ∧
        w.Size + 1 = (Vector.rep [1, 2, 3] 1 4 : Vector Nat).Size) ∧
      ((Vector.rep [1, 2, 3] 1 4 : Vector Nat).Size = 0 → w = Vector.rep [1, 2, 3] 1 4) :=
  ⟨by decide, C17_pop_back (Vector.rep [1, 2, 3] 1 4) (by decide)⟩

/-- C19. Insert at `end()` against append on the in-place path. The claim says that
`Insert(end(), v)` gives the same sequence, size and capacity as `PushBack(v)` on
every vector, the tail shift at `pos == size` being over an empty range. On the
code, with a vector holding `[1]` in a block of capacity 2, `PushBack(9)` yields
`[1, 9]` with size 2 and capacity 2, while `Insert(end(), 9)` gives
`std::move_backward` the range `[data_ + 1, data_ + 0)`, which ends before it
starts. -/
theorem C19_insert_at_end_against_append :
    ∃ v w : Vector Nat,
      (Vector.Reserve Vector.new 2 >>= fun u => Vector.PushBack u 1) = .ok v ∧
      v.Size = 1 ∧ v.Capacity = 2 ∧
      Vector.PushBack v 9 = .ok w ∧ w.traverse = .ok [1, 9] ∧ w.Size = 2 ∧ w.Capacity = 2 ∧
      Vector.EmplaceBack v 9 = .ok (w, 1) ∧
      Vector.Insert v v.end_ 9 = .error .invalidRange ∧
      Vector.Emplace v v.end_ 9 = .error .invalidRange :=
  ⟨Vector.rep [1] 1 2, Vector.rep [1, 9] 0 2, rfl, rfl, rfl, rfl, rfl, rfl, rfl, rfl, rfl, rfl⟩

end Claims4

/-! ## Growth of the capacity under appends -/

section Growth

variable {T : Type}

theorem bind_eq_ok {α β : Type} {x : Except Fault α} {f : α → Except Fault β} {b : β}
    (h : (x >>= f) = .ok b) : ∃ a, x = .ok a ∧ f a = .ok b := by
  cases x with
  | error e => simp at h
  | ok a => exact ⟨a, rfl, by simpa using h⟩

/-- The capacity after an append that returns. -/
theorem Vector.EmplaceBack_capacity [Element T] (v w : Vector T) (x : T) (r : Nat)
    (h : Vector.EmplaceBack v x = .ok (w, r)) :
    w.Capacity = if v.Size = v.Capacity then (if v.Size = 0 then 1 else v.Size * 2)
      else v.Capacity := by
  unfold Vector.EmplaceBack at h
  obtain ⟨v1, h1, h2⟩ := bind_eq_ok h
  obtain ⟨ref, _, h3⟩ := bind_eq_ok h2
  simp only [pure_eq_ok, Except.ok.injEq, Prod.mk.injEq] at h3
  have hw : w.Capacity = v1.Capacity := by
    rw [← h3.1]
    rfl
  rw [hw]
  by_cases hc : v.size_ = v.data_.Capacity
  · have hc2 : v.Size = v.Capacity := hc
    rw [if_pos hc] at h1
    obtain ⟨p, _, h4⟩ := bind_eq_ok h1
    obtain ⟨nb, _, h5⟩ := bind_eq_ok h4
    obtain ⟨r1, _, h6⟩ := bind_eq_ok h5
    obtain ⟨old, _, h7⟩ := bind_eq_ok h6
    simp only [pure_eq_ok, Except.ok.injEq] at h7
    rw [if_pos hc2, ← h7]
    rfl
  · have hc2 : ¬ v.Size = v.Capacity := hc
    rw [if_neg hc] at h1
    obtain ⟨p, _, h4⟩ := bind_eq_ok h1
    obtain ⟨b, _, h5⟩ := bind_eq_ok h4
    simp only [pure_eq_ok, Except.ok.injEq] at h5
    rw [if_neg hc2, ← h5]
    rfl

/-- The state a sequence of appends is in: nothing appended and no block, or a
capacity that is a power of two, at least the size and less than twice the size. -/
theorem Vector.appendAllCounting_live [Element T] (vs : List T) : ∀ (xs : List T) (k : Nat),
    ((xs = [] ∧ k = 0) ∨
      (0 < xs.length ∧ xs.length + k < 2 * xs.length ∧ ∃ e, xs.length + k = 2 ^ e)) →
    ∃ j n, Vector.appendAllCounting (Vector.rep xs k (xs.length + k)) vs
        = .ok (Vector.rep (xs ++ vs) j ((xs ++ vs).length + j), n) ∧
      (((xs ++ vs) = [] ∧ j = 0) ∨
        (0 < (xs ++ vs).length ∧ (xs ++ vs).length + j < 2 * (xs ++ vs).length ∧
          ∃ e, (xs ++ vs).length + j = 2 ^ e)) ∧
      n + max (xs.length + k) 1 = max ((xs ++ vs).length + j) 1 := by
  induction vs with
  | nil =>
    intro xs k hinv
    refine ⟨k, 0, by simp [Vector.appendAllCounting], by simpa using hinv, by simp⟩
  | cons x vs ih =>
    intro xs k hinv
    have hlen : (xs ++ [x]).length = xs.length + 1 := by simp
    cases k with
    | zero =>
      have hstep := Vector.EmplaceBack_rep_full xs 0 x
      rw [← Vector.rep_cap_congr xs 0 (xs.length + 0) xs.length (by simp)] at hstep
      generalize hg : (if xs.length = 0 then 1 else xs.length * 2) = g at hstep
      have hg1 : xs.length < g := by
        rw [← hg]
        exact growth_gt xs.length
      have hinv1 : ((xs ++ [x]) = [] ∧ g - xs.length - 1 = 0) ∨
          (0 < (xs ++ [x]).length ∧
            (xs ++ [x]).length + (g - xs.length - 1) < 2 * (xs ++ [x]).length ∧
            ∃ e, (xs ++ [x]).length + (g - xs.length - 1) = 2 ^ e) := by
        right
        rw [hlen]
        have hsum : xs.length + 1 + (g - xs.length - 1) = g := by omega
        rw [hsum]
        refine ⟨by omega, ?_, ?_⟩
        · rw [← hg]
          split <;> omega
        · rcases hinv with ⟨hx, _⟩ | ⟨hpos, _, e, he⟩
          · refine ⟨0, ?_⟩
            rw [← hg, hx]
            rfl
          · refine ⟨e + 1, ?_⟩
            rw [← hg, if_neg (by omega), Nat.pow_succ, ← he]
            omega
      obtain ⟨j, n, hrun, hinv2, hn⟩ := ih (xs ++ [x]) (g - xs.length - 1) hinv1
      have hcap : g = (xs ++ [x]).length + (g - xs.length - 1) := by
        rw [hlen]
        omega
      have hstep2 : Vector.EmplaceBack (Vector.rep xs 0 (xs.length + 0)) x
          = .ok (Vector.rep (xs ++ [x]) (g - xs.length - 1)
              ((xs ++ [x]).length + (g - xs.length - 1)), xs.length) := by
        rw [hstep, ← hcap]
      simp only [List.append_assoc, List.singleton_append] at hrun
      refine ⟨j, Vector.relocations (Vector.rep xs 0 (xs.length + 0)) + n, ?_, ?_, ?_⟩
      · simp only [Vector.appendAllCounting, Vector.PushBack, hstep2, bind_ok, pure_eq_ok, hrun]
      · simpa using hinv2
      · have hrel : Vector.relocations (Vector.rep xs 0 (xs.length + 0)) = xs.length := by
          simp [Vector.relocations, Vector.rep, RawMemory.Capacity]
        rw [hrel]
        simp only [List.append_assoc, List.singleton_append] at hn
        have hg2 : g = if xs.length = 0 then 1 else xs.length * 2 := hg.symm
        rw [hlen] at hn
        split at hg2 <;> omega
    | succ i =>
      have hstep := Vector.EmplaceBack_rep_inplace xs i (xs.length + (i + 1)) x (by omega)
      have hinv1 : ((xs ++ [x]) = [] ∧ i = 0) ∨
          (0 < (xs ++ [x]).length ∧ (xs ++ [x]).length + i < 2 * (xs ++ [x]).length ∧
            ∃ e, (xs ++ [x]).length + i = 2 ^ e) := by
        right
        rw [hlen]
        rcases hinv with ⟨_, hk⟩ | ⟨hpos, hlt, e, he⟩
        · omega
        · exact ⟨by omega, by omega, e, by omega⟩
      obtain ⟨j, n, hrun, hinv2, hn⟩ := ih (xs ++ [x]) i hinv1
      have hcap : xs.length + (i + 1) = (xs ++ [x]).length + i := by
        rw [hlen]
        omega
      have hstep2 : Vector.EmplaceBack (Vector.rep xs (i + 1) (xs.length + (i + 1))) x
          = .ok (Vector.rep (xs ++ [x]) i ((xs ++ [x]).length + i), xs.length) := by
        rw [hstep, ← hcap]
      simp only [List.append_assoc, List.singleton_append] at hrun
      refine ⟨j, Vector.relocations (Vector.rep xs (i + 1) (xs.length + (i + 1))) + n,
        ?_, ?_, ?_⟩
      · simp only [Vector.appendAllCounting, Vector.PushBack, hstep2, bind_ok, pure_eq_ok, hrun]
      · simpa using hinv2
      · have hrel : Vector.relocations (Vector.rep xs (i + 1) (xs.length + (i + 1))) = 0 := by
          simp [Vector.relocations, Vector.rep, RawMemory.Capacity]
        rw [hrel]
        simp only [List.append_assoc, List.singleton_append] at hn
        rw [hlen] at hn
        omega

/-- Counting relocations does not change what the appends do. -/
theorem Vector.appendAll_of_counting [Element T] (vs : List T) : ∀ (v w : Vector T) (n : Nat),
    Vector.appendAllCounting v vs = .ok (w, n) → Vector.appendAll v vs = .ok w := by
  induction vs with
  | nil =>
    intro v w n h
    simp only [Vector.appendAllCounting, Except.ok.injEq, Prod.mk.injEq] at h
    simp [Vector.appendAll, h.1]
  | cons x vs ih =>
    intro v w n h
    simp only [Vector.appendAllCounting] at h
    obtain ⟨v1, h1, h2⟩ := bind_eq_ok h
    obtain ⟨r, h3, h4⟩ := bind_eq_ok h2
    simp only [pure_eq_ok, Except.ok.injEq, Prod.mk.injEq] at h4
    have := ih v1 r.1 r.2 h3
    simp only [Vector.appendAll, h1, bind_ok, this, h4.1]

end Growth

section Claims5

variable {T : Type}

/-- C15. Growth policy: an append that returns changes `Capacity()` only when
`Size() == Capacity()`, and then the new capacity is `max(1, 2 * Size())`; on a
vector that satisfies the representation invariant and owns a block of
`Capacity()` cells the append does return. Starting from an empty
default-constructed vector, `N` appends succeed and leave `Size() == N`,
`Capacity() >= Size()`, and `Capacity()` equal to 0 for `N = 0` and to the smallest
power of two that is at least `N` for `N >= 1`. -/
theorem C15_growth_policy [Element T] :
    (∀ (v w : Vector T) (x : T) (r : Nat), Vector.EmplaceBack v x = .ok (w, r) →
      (w.Capacity ≠ v.Capacity → v.Size = v.Capacity) ∧
      (v.Size = v.Capacity → w.Capacity = max 1 (2 * v.Size))) ∧
    (∀ (v : Vector T) (x : T), v.WF → v.data_.buffer_.length = v.Capacity →
      ∃ (w : Vector T) (r : Nat), Vector.EmplaceBack v x = .ok (w, r) ∧
        Vector.PushBack v x = .ok w) ∧
    (∀ vs : List T, ∃ v : Vector T, Vector.appendAll Vector.new vs = .ok v ∧
      v.Size = vs.length ∧
      v.Size ≤ v.Capacity ∧
      (vs.length = 0 → v.Capacity = 0) ∧
      (0 < vs.length → ∃ e : Nat, v.Capacity = 2 ^ e ∧ vs.length ≤ 2 ^ e ∧
        ∀ j : Nat, vs.length ≤ 2 ^ j → 2 ^ e ≤ 2 ^ j)) := by
  refine ⟨?_, ?_, ?_⟩
  · intro v w x r h
    have hc := Vector.EmplaceBack_capacity v w x r h
    refine ⟨?_, ?_⟩
    · intro hne
      by_contra hsz
      rw [if_neg hsz] at hc
      exact hne hc
    · intro hsz
      rw [if_pos hsz] at hc
      rw [hc]
      split <;> omega
  · intro v x hv hb
    obtain ⟨k, hrep, _⟩ := hv.eq_rep
    have hbuf : v.data_.buffer_.length = v.contents.length + k := by
      have := congrArg (fun u : Vector T => u.data_.buffer_.length) hrep
      simpa [Vector.rep, cellsOf_length] using this
    have hcap : v.data_.capacity_ = v.contents.length + k := by
      have : v.Capacity = v.data_.capacity_ := rfl
      omega
    obtain ⟨j, hj⟩ := Vector.EmplaceBack_live v.contents k x
    rw [← hcap, ← hrep] at hj
    exact ⟨_, _, hj, by simp [Vector.PushBack, hj]⟩
  · intro vs
    obtain ⟨j, n, hrun, hinv, _⟩ :=
      Vector.appendAllCounting_live vs ([] : List T) 0 (Or.inl ⟨rfl, rfl⟩)
    simp only [List.nil_append, List.length_nil, Nat.zero_add] at hrun hinv
    have happ := Vector.appendAll_of_counting vs _ _ _ hrun
    refine ⟨_, happ, rfl, ?_, ?_, ?_⟩
    · rw [Vector.size_rep, Vector.capacity_rep]
      omega
    · intro h0
      rw [Vector.capacity_rep]
      rcases hinv with ⟨_, hj⟩ | ⟨hpos, _⟩
      · omega
      · omega
    · intro hpos
      rw [Vector.capacity_rep]
      rcases hinv with ⟨hnil, _⟩ | ⟨_, hlt, e, he⟩
      · rw [hnil] at hpos
        exact absurd hpos (Nat.lt_irrefl 0)
      · refine ⟨e, he, by omega, ?_⟩
        intro i hi
        by_contra hcon
        have h1 : 2 ^ i < 2 ^ e := Nat.lt_of_not_le hcon
        have h2 : i < e := (Nat.pow_lt_pow_iff_right (by decide)).mp h1
        have h3 : 2 ^ (i + 1) ≤ 2 ^ e := Nat.pow_le_pow_right (by decide) h2
        rw [Nat.pow_succ] at h3
        omega

/-- C16. Amortised relocation count: starting from an empty default-constructed
vector, `N` consecutive appends succeed, and the total number of existing elements
they pass to `MoveOrCopy` is 0 for `N = 0` and less than `2 * N` for `N >= 1`. -/
theorem C16_relocation_count [Element T] (vs : List T) :
    ∃ (v : Vector T) (n : Nat), Vector.appendAllCounting Vector.new vs = .ok (v, n) ∧
      Vector.appendAll Vector.new vs = .ok v ∧
      (vs.length = 0 → n = 0) ∧
      (1 ≤ vs.length → n < 2 * vs.length) := by
  obtain ⟨j, n, hrun, hinv, hn⟩ :=
    Vector.appendAllCounting_live vs ([] : List T) 0 (Or.inl ⟨rfl, rfl⟩)
  simp only [List.nil_append, List.length_nil, Nat.zero_add] at hrun hinv hn
  refine ⟨_, n, hrun, Vector.appendAll_of_counting vs _ _ _ hrun, ?_, ?_⟩
  · intro h0
    rcases hinv with ⟨_, hj⟩ | ⟨hpos, _⟩
    · rw [h0, hj] at hn
      simpa using hn
    · omega
  · intro hpos
    rcases hinv with ⟨hnil, _⟩ | ⟨_, hlt, _⟩
    · rw [hnil] at hpos
      simp at hpos
    · omega

end Claims5

/-! ## The assertions of `RawMemory` -/

section Assertions

variable {T : Type}

end Assertions

section Assertions2

variable {T : Type}

end Assertions2

section Claims6

variable {T : Type}

end Claims6

/-! ## Relocation when element constructions may throw -/

section ThrowingLemmas

variable {T : Type}

theorem uninitialized_copy_n_throwing_ok (throws : T → Bool) (ys : List T) :
    ∀ (spre spost dpre mid dpost : Block T) (first d_first : Nat),
    first = spre.length → d_first = dpre.length → mid.length = ys.length →
    ys.any throws = false →
    uninitialized_copy_n_throwing throws (spre ++ (ys.map some ++ spost)) first ys.length
        (dpre ++ (mid ++ dpost)) d_first
      = .ok (some (dpre ++ (ys.map some ++ dpost))) := by
  induction ys with
  | nil =>
    intro spre spost dpre mid dpost first d_first _ _ hm _
    have : mid = [] := List.length_eq_zero.mp (by simpa using hm)
    simp [uninitialized_copy_n_throwing, this]
  | cons y ys ih =>
    intro spre spost dpre mid dpost first d_first hf hd hm ht
    simp only [List.any_cons, Bool.or_eq_false_iff] at ht
    cases mid with
    | nil => simp at hm
    | cons m mid =>
      have h := ih (spre ++ [some y]) spost (dpre ++ [some y]) mid dpost (first + 1)
        (d_first + 1) (by simp [hf]) (by simp [hd]) (by simpa using hm) ht.2
      simp only [List.append_assoc, List.singleton_append] at h
      simp [uninitialized_copy_n_throwing, readLive_mid spre _ y first hf, ht.1,
        construct_at_mid dpre _ m y d_first hd, h]

theorem uninitialized_copy_n_throwing_fail (throws : T → Bool) (ys : List T) :
    ∀ (spre spost dpre mid dpost : Block T) (first d_first : Nat),
    first = spre.length → d_first = dpre.length → mid.length = ys.length →
    ys.any throws = true →
    uninitialized_copy_n_throwing throws (spre ++ (ys.map some ++ spost)) first ys.length
        (dpre ++ (mid ++ dpost)) d_first
      = .ok none := by
  induction ys with
  | nil =>
    intro spre spost dpre mid dpost first d_first _ _ _ ht
    simp at ht
  | cons y ys ih =>
    intro spre spost dpre mid dpost first d_first hf hd hm ht
    cases mid with
    | nil => simp at hm
    | cons m mid =>
      by_cases hy : throws y = true
      · simp [uninitialized_copy_n_throwing, readLive_mid spre _ y first hf, hy]
      · have hy2 : throws y = false := by simpa using hy
        have ht2 : ys.any throws = true := by simpa [hy2] using ht
        have h := ih (spre ++ [some y]) spost (dpre ++ [some y]) mid dpost (first + 1)
          (d_first + 1) (by simp [hf]) (by simp [hd]) (by simpa using hm) ht2
        simp only [List.append_assoc, List.singleton_append] at h
        simp [uninitialized_copy_n_throwing, readLive_mid spre _ y first hf, hy2,
          construct_at_mid dpre _ m y d_first hd, h]

theorem uninitialized_move_n_throwing_ok [Element T] (throws : T → Bool) (ys : List T) :
    ∀ (spre spost dpre mid dpost : Block T) (first d_first : Nat),
    first = spre.length → d_first = dpre.length → mid.length = ys.length →
    ys.any throws = false →
    uninitialized_move_n_throwing throws (spre ++ (ys.map some ++ spost)) first ys.length
        (dpre ++ (mid ++ dpost)) d_first
      = .ok (spre ++ ((ys.map Element.movedFrom).map some ++ spost),
          some (dpre ++ (ys.map some ++ dpost))) := by
  induction ys with
  | nil =>
    intro spre spost dpre mid dpost first d_first _ _ hm _
    have : mid = [] := List.length_eq_zero.mp (by simpa using hm)
    simp [uninitialized_move_n_throwing, this]
  | cons y ys ih =>
    intro spre spost dpre mid dpost first d_first hf hd hm ht
    simp only [List.any_cons, Bool.or_eq_false_iff] at ht
    cases mid with
    | nil => simp at hm
    | cons m mid =>
      have h := ih (spre ++ [some (Element.movedFrom y)]) spost (dpre ++ [some y]) mid dpost
        (first + 1) (d_first + 1) (by simp [hf]) (by simp [hd]) (by simpa using hm) ht.2
      simp only [List.append_assoc, List.singleton_append] at h
      simp [uninitialized_move_n_throwing, readLive_mid spre _ y first hf, ht.1,
        construct_at_mid dpre _ m y d_first hd, set_mid spre _ (some y) _ first hf, h]

/-- Relocation of a copy-constructible element type whose move may throw is by
copy: the source block is returned as it was, whether the copy throws or not. -/
theorem Vector.MoveOrCopy_throwing_copy [Element T] (th : Throws T)
    (hcopy : Element.copyConstructible T = true)
    (hmove : Element.nothrowMoveConstructible T = false)
    (src : Block T) (first count : Nat) (dst : Block T) (d_first : Nat) :
    Vector.MoveOrCopy_throwing th src first count dst d_first
      = (uninitialized_copy_n_throwing th.copy src first count dst d_first >>=
          fun o => pure (src, o)) := by
  simp [Vector.MoveOrCopy_throwing, hcopy, hmove]

end ThrowingLemmas

section ThrowingOperations

variable {T : Type}

end ThrowingOperations

section ThrowingEmplace

variable {T : Type}

end ThrowingEmplace

section Claims7

variable {T : Type}

/-- C13. Insertion whose new element fails to construct. The claim says that the
exception is propagated and the vector unchanged on every path. On the code, with
a full vector holding `[1], [2]` (reallocating path) and with an empty vector of
capacity 1 (in-place path), the `catch (...)` block of `Emplace` takes the
exception, calls `std::destroy_n` on the cell whose construction failed, which
holds no object, and does not rethrow. Only on the in-place path of a non-empty
vector, where the temporary is built outside any `try`, does the exception leave
the call with the vector unchanged. -/
theorem C13_emplace_failed_construction :
    Vector.Emplace_throwing Throws.never
        (Vector.rep [⟨[1]⟩, ⟨[2]⟩] 0 2 : Vector Text) 1 none
      = .error .notLive ∧
    Vector.Emplace_throwing Throws.never
        (Vector.rep [] 1 1 : Vector Text) 0 none
      = .error .notLive ∧
    Vector.Emplace_throwing Throws.never
        (Vector.rep [⟨[1]⟩, ⟨[2]⟩] 1 3 : Vector Text) 1 none
      = .ok (Vector.rep [⟨[1]⟩, ⟨[2]⟩] 1 3, .threw) :=
  ⟨rfl, rfl, rfl⟩

end Claims7

section Claims8

variable {T : Type}

end Claims8

section Claims9

variable {T : Type}

/-- C18, as stated, fails for an element type that is neither nothrow move
constructible nor copy constructible: `MoveOrCopy` moves its elements, since they
cannot be copied. The two handles of the source block are left moved-from, holding
0; and when the move of handle 2 throws, the relocation fails after handle 1 has
been moved from. -/
theorem C18_move_only_type_is_moved :
    Element.nothrowMoveConstructible Handle = false ∧
    Vector.MoveOrCopy ([some ⟨1⟩, some ⟨2⟩] : Block Handle) 0 2 [none, none] 0
      = .ok ([some ⟨0⟩, some ⟨0⟩], [some ⟨1⟩, some ⟨2⟩]) ∧
    Vector.MoveOrCopy_throwing Handle.moveOfTwoThrows [some ⟨1⟩, some ⟨2⟩] 0 2 [none, none] 0
      = .ok ([some ⟨0⟩, some ⟨2⟩], none) :=
  ⟨rfl, rfl, rfl⟩

/-- C18, amended. Move-or-copy relocation policy: `MoveOrCopy` move-constructs the
elements if and only if the element type is nothrow move constructible or is not
copy constructible: the elements arrive in the new block and the source elements
are left moved-from. Otherwise (a copy-constructible type whose move may throw) it
copy-constructs them and leaves the source elements untouched, also when a copy
throws. A relocation of a nothrow move constructible type does not throw. -/
theorem C18_move_or_copy_policy [Element T] (th : Throws T) (ys : List T)
    (spre spost dpre mid dpost : Block T) (hm : mid.length = ys.length) :
    ((Element.nothrowMoveConstructible T = true ∨ Element.copyConstructible T = false) →
      Vector.MoveOrCopy (spre ++ (ys.map some ++ spost)) spre.length ys.length
          (dpre ++ (mid ++ dpost)) dpre.length
        = .ok (spre ++ ((ys.map Element.movedFrom).map some ++ spost),
            dpre ++ (ys.map some ++ dpost))) ∧
    ((Element.nothrowMoveConstructible T = false ∧ Element.copyConstructible T = true) →
      Vector.MoveOrCopy (spre ++ (ys.map some ++ spost)) spre.length ys.length
          (dpre ++ (mid ++ dpost)) dpre.length
        = .ok (spre ++ (ys.map some ++ spost), dpre ++ (ys.map some ++ dpost)) ∧
      ∃ o : Option (Block T),
        Vector.MoveOrCopy_throwing th (spre ++ (ys.map some ++ spost)) spre.length ys.length
            (dpre ++ (mid ++ dpost)) dpre.length
          = .ok (spre ++ (ys.map some ++ spost), o)) ∧
    (Element.nothrowMoveConstructible T = true →
      Vector.MoveOrCopy_throwing th (spre ++ (ys.map some ++ spost)) spre.length ys.length
          (dpre ++ (mid ++ dpost)) dpre.length
        = .ok (spre ++ ((ys.map Element.movedFrom).map some ++ spost),
            some (dpre ++ (ys.map some ++ dpost)))) := by
  refine ⟨?_, ?_, ?_⟩
  · intro h
    unfold Vector.MoveOrCopy
    rw [if_pos (by rcases h with h | h <;> simp [h])]
    exact uninitialized_move_n_spec ys spre spost dpre mid dpost _ _ rfl rfl hm
  · rintro ⟨hn, hc⟩
    refine ⟨?_, ?_⟩
    · unfold Vector.MoveOrCopy
      rw [if_neg (by simp [hn, hc]),
        uninitialized_copy_n_spec ys spre spost dpre mid dpost _ _ rfl rfl hm]
      rfl
    · rw [Vector.MoveOrCopy_throwing_copy th hc hn]
      by_cases hany : ys.any th.copy = true
      · rw [uninitialized_copy_n_throwing_fail th.copy ys spre spost dpre mid dpost _ _ rfl rfl
          hm hany]
        exact ⟨none, rfl⟩
      · rw [uninitialized_copy_n_throwing_ok th.copy ys spre spost dpre mid dpost _ _ rfl rfl
          hm (by simpa using hany)]
        exact ⟨_, rfl⟩
  · intro hn
    have hany : ys.any (fun x => !Element.nothrowMoveConstructible T && th.move x) = false := by
      simp [hn]
    unfold Vector.MoveOrCopy_throwing
    rw [if_pos (by simp [hn])]
    exact uninitialized_move_n_throwing_ok _ ys spre spost dpre mid dpost _ _ rfl rfl hm hany

theorem C18_move_or_copy_policy_witness :
    ([none, none] : Block Text).length = ([⟨[1]⟩, ⟨[7]⟩] : List Text).length ∧
    (((Element.nothrowMoveConstructible Text = true ∨ Element.copyConstructible Text = false) →
      Vector.MoveOrCopy ([] ++ (([⟨[1]⟩, ⟨[7]⟩] : List Text).map some ++ []))
          ([] : Block Text).length ([⟨[1]⟩, ⟨[7]⟩] : List Text).length
          ([] ++ ([none, none] ++ [])) ([] : Block Text).length
        = .ok ([] ++ ((([⟨[1]⟩, ⟨[7]⟩] : List Text).map Element.movedFrom).map some ++ []),
            [] ++ (([⟨[1]⟩, ⟨[7]⟩] : List Text).map some ++ []))) ∧
    ((Element.nothrowMoveConstructible Text = false ∧ Element.copyConstructible Text = true) →
      Vector.MoveOrCopy ([] ++ (([⟨[1]⟩, ⟨[7]⟩] : List Text).map some ++ []))
          ([] : Block Text).length ([⟨[1]⟩, ⟨[7]⟩] : List Text).length
          ([] ++ ([none, none] ++ [])) ([] : Block Text).length
        = .ok ([] ++ (([⟨[1]⟩, ⟨[7]⟩] : List Text).map some ++ []),
            [] ++ (([⟨[1]⟩, ⟨[7]⟩] : List Text).map some ++ [])) ∧
      ∃ o : Option (Block Text),
        Vector.MoveOrCopy_throwing Text.copyOfSevenThrows
            ([] ++ (([⟨[1]⟩, ⟨[7]⟩] : List Text).map some ++ [])) ([] : Block Text).length
            ([⟨[1]⟩, ⟨[7]⟩] : List Text).length ([] ++ ([none, none] ++ []))
            ([] : Block Text).length
          = .ok ([] ++ (([⟨[1]⟩, ⟨[7]⟩] : List Text).map some ++ []), o)) ∧
    (Element.nothrowMoveConstructible Text = true →
      Vector.MoveOrCopy_throwing Text.copyOfSevenThrows
          ([] ++ (([⟨[1]⟩, ⟨[7]⟩] : List Text).map some ++ [])) ([] : Block Text).length
          ([⟨[1]⟩, ⟨[7]⟩] : List Text).length ([] ++ ([none, none] ++ []))
          ([] : Block Text).length
        = .ok ([] ++ ((([⟨[1]⟩, ⟨[7]⟩] : List Text).map Element.movedFrom).map some ++ []),
            some ([] ++ (([⟨[1]⟩, ⟨[7]⟩] : List Text).map some ++ []))))) :=
  ⟨rfl, C18_move_or_copy_policy Text.copyOfSevenThrows [⟨[1]⟩, ⟨[7]⟩] [] [] [] [none, none] []
    rfl⟩

end Claims9

/-! ## Insertion at the end against append -/

section InsertAtEnd

variable {T : Type}

/-- On a full vector, and on an empty vector with spare capacity, `Emplace` at
`end()` does what `EmplaceBack` does. -/
theorem Vector.Emplace_end_eq_EmplaceBack [Element T] (v : Vector T) (x : T) (hv : v.WF)
    (hb : v.data_.buffer_.length = v.Capacity) (h : v.Size = v.Capacity ∨ v.Size = 0) :
    Vector.Emplace v v.end_ x = Vector.EmplaceBack v x ∧
    ∃ w : Vector T, Vector.EmplaceBack v x = .ok (w, v.Size) ∧
      w.contents = v.contents ++ [x] := by
  obtain ⟨k, hrep, _⟩ := hv.eq_rep
  have hsz : v.Size = v.contents.length := hv.size_eq
  have hcap : v.Capacity = v.data_.capacity_ := rfl
  have hend : v.end_ = v.Size := by
    simp [Vector.end_, Vector.Size]
  have hbuf : v.data_.buffer_.length = v.contents.length + k := by
    have := congrArg (fun u : Vector T => u.data_.buffer_.length) hrep
    simpa [Vector.rep, cellsOf_length] using this
  generalize v.contents = xs at hrep hsz hbuf
  rw [hend, hsz]
  by_cases hfull : v.Size = v.Capacity
  · have hv2 : v = Vector.rep xs k xs.length := by
      rw [hrep]
      exact Vector.rep_cap_congr xs k _ _ (by omega)
    have h1 := Vector.Emplace_rep_full xs [] k x
    simp only [List.append_nil] at h1
    have h2 := Vector.EmplaceBack_rep_full xs k x
    rw [← hv2] at h1 h2
    refine ⟨?_, _, h2, Vector.contents_rep _ _ _⟩
    rw [h1, h2]
  · have h0 : v.Size = 0 := by
      rcases h with h | h
      · exact absurd h hfull
      · exact h
    have hx0 : xs = [] := List.length_eq_zero.mp (by omega)
    subst hx0
    obtain ⟨j, rfl⟩ : ∃ j, k = j + 1 := ⟨k - 1, by simp at hbuf hsz; omega⟩
    have hpos : 0 < v.data_.capacity_ := by
      simp at hbuf
      omega
    have h1 := Vector.Emplace_rep_empty j v.data_.capacity_ 0 x hpos
    have h2 := Vector.EmplaceBack_rep_inplace ([] : List T) j v.data_.capacity_ x hpos
    rw [← hrep] at h1 h2
    simp only [List.nil_append, List.length_nil] at h2 ⊢
    refine ⟨?_, _, h2, Vector.contents_rep _ _ _⟩
    rw [h1, h2]

end InsertAtEnd

/-! ## The two embeddings agree when nothing throws -/

section Agreement

variable {T : Type}

theorem uninitialized_copy_n_throwing_never (src : Block T) (n : Nat) :
    ∀ (first : Nat) (dst : Block T) (d_first : Nat),
    uninitialized_copy_n_throwing (fun _ => false) src first n dst d_first
      = (uninitialized_copy_n src first n dst d_first >>= fun b => pure (some b)) := by
  induction n with
  | zero => intro first dst d_first; simp [uninitialized_copy_n_throwing, uninitialized_copy_n]
  | succ n ih =>
    intro first dst d_first
    simp only [uninitialized_copy_n_throwing, uninitialized_copy_n]
    cases readLive src first with
    | error e => simp
    | ok x =>
      simp only [bind_ok, Bool.false_eq_true, if_false]
      cases construct_at dst d_first x with
      | error e => simp
      | ok dst1 => simp only [bind_ok, ih]

theorem uninitialized_move_n_throwing_never [Element T] (n : Nat) :
    ∀ (src : Block T) (first : Nat) (dst : Block T) (d_first : Nat),
    uninitialized_move_n_throwing (fun _ => false) src first n dst d_first
      = (uninitialized_move_n src first n dst d_first >>= fun r => pure (r.1, some r.2)) := by
  induction n with
  | zero =>
    intro src first dst d_first
    simp [uninitialized_move_n_throwing, uninitialized_move_n]
  | succ n ih =>
    intro src first dst d_first
    simp only [uninitialized_move_n_throwing, uninitialized_move_n]
    cases readLive src first with
    | error e => simp
    | ok x =>
      simp only [bind_ok, Bool.false_eq_true, if_false]
      cases construct_at dst d_first x with
      | error e => simp
      | ok dst1 => simp only [bind_ok, ih]

theorem Vector.MoveOrCopy_throwing_never [Element T] (src : Block T) (first count : Nat)
    (dst : Block T) (d_first : Nat) :
    Vector.MoveOrCopy_throwing Throws.never src first count dst d_first
      = (Vector.MoveOrCopy src first count dst d_first >>= fun r => pure (r.1, some r.2)) := by
  unfold Vector.MoveOrCopy_throwing Vector.MoveOrCopy
  split
  · have hp : (fun x : T => !Element.nothrowMoveConstructible T && Throws.never.move x)
        = fun _ => false := by
      funext x
      simp [Throws.never]
    rw [hp]
    exact uninitialized_move_n_throwing_never count src first dst d_first
  · have hp : (Throws.never : Throws T).copy = fun _ => false := rfl
    rw [hp, uninitialized_copy_n_throwing_never]
    cases uninitialized_copy_n src first count dst d_first with
    | error e => simp
    | ok b => simp

/-- `Reserve_throwing` is `Reserve` when nothing throws. -/
theorem Vector.Reserve_throwing_never [Element T] (v : Vector T) (n : Nat) :
    Vector.Reserve_throwing Throws.never v n
      = (Vector.Reserve v n >>= fun w => pure (w, Completion.returned ())) := by
  unfold Vector.Reserve_throwing Vector.Reserve
  split
  · rfl
  · dsimp only
    rw [Vector.MoveOrCopy_throwing_never]
    cases Vector.MoveOrCopy v.data_.buffer_ v.data_.GetAddress v.size_
        (RawMemory.ofCapacity n : RawMemory T).buffer_
        (RawMemory.ofCapacity n : RawMemory T).GetAddress with
    | error e => simp
    | ok r =>
      simp only [bind_ok, pure_eq_ok]
      cases destroy_n r.1 v.data_.GetAddress v.size_ with
      | error e => simp
      | ok old => simp

/-- `EmplaceBack_throwing` is `EmplaceBack` when nothing throws. -/
theorem Vector.EmplaceBack_throwing_never [Element T] (v : Vector T) (x : T) :
    Vector.EmplaceBack_throwing Throws.never v (some x)
      = (Vector.EmplaceBack v x >>= fun r => pure (r.1, Completion.returned r.2)) := by
  unfold Vector.EmplaceBack_throwing Vector.EmplaceBack
  split
  · dsimp only
    cases (RawMemory.ofCapacity (if v.size_ = 0 then 1 else v.size_ * 2) :
        RawMemory T).add v.size_ with
    | error e => simp
    | ok p =>
      simp only [bind_ok, construct_at_throwing]
      cases construct_at (RawMemory.ofCapacity (if v.size_ = 0 then 1 else v.size_ * 2) :
          RawMemory T).buffer_ p x with
      | error e => simp
      | ok nb =>
        simp only [bind_ok, pure_eq_ok, Vector.MoveOrCopy_throwing_never]
        cases Vector.MoveOrCopy v.data_.buffer_ v.data_.GetAddress v.size_ nb
            (RawMemory.ofCapacity (if v.size_ = 0 then 1 else v.size_ * 2) :
              RawMemory T).GetAddress with
        | error e => simp
        | ok r =>
          simp only [bind_ok]
          cases destroy_n r.1 v.data_.GetAddress v.size_ with
          | error e => simp
          | ok old =>
            simp only [bind_ok]
            cases Vector.index _ _ with
            | error e => simp
            | ok ref => simp
  · dsimp only
    cases v.data_.add v.size_ with
    | error e => simp
    | ok p =>
      simp only [bind_ok, construct_at_throwing]
      cases construct_at v.data_.buffer_ p x with
      | error e => simp
      | ok b =>
        simp only [bind_ok, pure_eq_ok]
        cases Vector.index _ _ with
        | error e => simp
        | ok ref => simp

theorem readLive_then_move_construct [Element T] {β : Type} (b : Block T) (i j : Nat)
    (f : Block T → Except Fault β) :
    (readLive b i >>= fun _ => move_construct_within b i j >>= f)
      = (move_construct_within b i j >>= f) := by
  unfold move_construct_within
  cases readLive b i with
  | error e => simp
  | ok x => simp

/-- `Emplace_throwing` is `Emplace` when nothing throws. -/
theorem Vector.Emplace_throwing_never [Element T] (v : Vector T) (pos : Nat) (x : T) :
    Vector.Emplace_throwing Throws.never v pos (some x)
      = (Vector.Emplace v pos x >>= fun r => pure (r.1, Completion.returned (some r.2))) := by
  unfold Vector.Emplace_throwing Vector.Emplace
  dsimp only
  split
  · cases (RawMemory.ofCapacity (if v.size_ = 0 then 1 else v.size_ * 2) :
        RawMemory T).add (pos - v.begin) with
    | error e => simp
    | ok p =>
      simp only [bind_ok, construct_at_throwing]
      cases construct_at (RawMemory.ofCapacity (if v.size_ = 0 then 1 else v.size_ * 2) :
          RawMemory T).buffer_ p x with
      | error e => simp
      | ok nb =>
        simp only [bind_ok, pure_eq_ok, Vector.MoveOrCopy_throwing_never]
        cases Vector.MoveOrCopy v.data_.buffer_ v.data_.GetAddress (pos - v.begin) nb
            (RawMemory.ofCapacity (if v.size_ = 0 then 1 else v.size_ * 2) :
              RawMemory T).GetAddress with
        | error e => simp
        | ok r1 =>
          simp only [bind_ok]
          cases Vector.MoveOrCopy r1.1 (v.begin + (pos - v.begin)) (v.end_ - pos) r1.2
              ((RawMemory.ofCapacity (if v.size_ = 0 then 1 else v.size_ * 2) :
                RawMemory T).GetAddress + (pos - v.begin) + 1) with
          | error e => simp
          | ok r2 =>
            simp only [bind_ok]
            cases destroy_n r2.1 v.data_.GetAddress v.size_ with
            | error e => simp
            | ok old => simp
  · split
    · cases v.data_.add v.size_ with
      | error e => simp
      | ok p =>
        simp only [bind_ok]
        cases v.index (v.size_ - 1) with
        | error e => simp
        | ok last =>
          have hnever : ∀ y : T,
              (!Element.nothrowMoveConstructible T && (Throws.never : Throws T).move y)
                = false := by
            intro y
            simp [Throws.never]
          simp only [bind_ok, hnever, Bool.false_eq_true, if_false]
          rw [readLive_then_move_construct]
          cases move_construct_within v.data_.buffer_ last p with
          | error e => simp
          | ok b1 =>
            simp only [bind_ok]
            cases v.data_.add (pos - v.begin) with
            | error e => simp
            | ok first =>
              simp only [bind_ok]
              cases move_backward b1 first (v.end_ - 1) v.end_ with
              | error e => simp
              | ok b2 =>
                simp only [bind_ok]
                cases v.data_.index (pos - v.begin) with
                | error e => simp
                | ok slot =>
                  simp only [bind_ok]
                  cases assign_at b2 slot x with
                  | error e => simp
                  | ok b3 => simp
    · simp only [construct_at_throwing]
      cases construct_at v.data_.buffer_ v.data_.GetAddress x with
      | error e => simp
      | ok b => simp

end Agreement

end AdvancedVector
